import Mathlib

/-!
Verification of the load-balancing reverse proxy of `agent_infra`.

This file gives a shallow embedding, in Lean 4, of the parts of the
repository that the verified properties talk about:

* `agent_infra/proxy/backend.py` — `Backend`, `BackendPool`
* `agent_infra/proxy/strategies.py` — `select_backend`
* `agent_infra/proxy/tracker.py` — `TrackedRequest`, `RequestTracker`
* `agent_infra/proxy/server.py` — `parse_vllm_metrics`, load refresh,
  model resolution and the per-request backend bookkeeping of
  `LoadBalancingProxy._proxy_request`
* `agent_infra/orchestrator/manager.py` — the reconciliation tick of
  `ConnectionManager._poll_loop`

Python `float` timestamps are modelled as `Int`, latencies and metric
values as `ℚ`; Python dicts (which preserve insertion order) are
modelled as association lists with in-place update; mutation through an
object reference (the backend returned by `get_backend`) is modelled by
returning the backend's position in the pool list.
-/

namespace AgentInfra

/-- `Backend` dataclass from `agent_infra/proxy/backend.py`. -/
structure Backend where
  host : String
  port : Nat
  healthy : Bool := true
  last_check : Int := 0
  request_count : Nat := 0
  error_count : Nat := 0
  avg_latency_ms : ℚ := 0
  gpu_load : Int := 0
  load_last_updated : Int := 0
  inflight : Int := 0
  consecutive_timeouts : Nat := 0
  partition : String := ""
  deriving Repr, DecidableEq

instance : Inhabited Backend := ⟨{ host := "", port := 0 }⟩

/-- `Backend.record_request`: bump counters and fold the latency into the
exponential moving average (α = 0.2) on success, else bump the error count. -/
def Backend.record_request (b : Backend) (latency_ms : ℚ) (success : Bool) : Backend :=
  let b1 := { b with request_count := b.request_count + 1 }
  if success then
    { b1 with avg_latency_ms := (1/5 : ℚ) * latency_ms + (1 - 1/5) * b1.avg_latency_ms }
  else
    { b1 with error_count := b1.error_count + 1 }

/-- Positions (indices into the original list) of the elements satisfying `q`,
starting the count at `n`.  This renders the identity of the objects of the
Python list comprehension `[b for b in self.backends if b.healthy]`. -/
def positionsFrom (q : Backend → Bool) : Nat → List Backend → List Nat
  | _, [] => []
  | n, a :: as => if q a then n :: positionsFrom q (n + 1) as else positionsFrom q (n + 1) as

/-- Positions of the minimal-key elements, then pick `tied[idx % len(tied)]`;
the tie-breaking pattern shared by the three `least_*` branches of
`select_backend` in `agent_infra/proxy/strategies.py`. -/
def tiedPick (backends : List Backend) (key : Backend → ℚ) (idx : Nat) :
    Option (Nat × Nat) :=
  match backends.map key with
  | [] => none
  | k :: ks =>
    let m := ks.foldl min k
    let tied := positionsFrom (fun b => key b = m) 0 backends
    if tied.isEmpty then none
    else some (tied.getD (idx % tied.length) 0, idx + 1)

/-- `select_backend` from `agent_infra/proxy/strategies.py`.  Takes the list of
healthy backends, the strategy name and the current rotation index; returns
the position of the chosen backend **within that list** and the new index
(`none` embeds the `ValueError` on an empty list). -/
def select_backend (backends : List Backend) (strategy : String) (idx : Nat) :
    Option (Nat × Nat) :=
  if backends.isEmpty then none
  else if strategy = "round_robin" then
    some (idx % backends.length, idx + 1)
  else if strategy = "least_connections" then
    tiedPick backends (fun b => (b.inflight : ℚ)) idx
  else if strategy = "least_latency" then
    tiedPick backends (fun b => b.avg_latency_ms) idx
  else if strategy = "least_load" then
    tiedPick backends (fun b => ((b.gpu_load + b.inflight : Int) : ℚ)) idx
  else
    some (0, idx)

/-- `BackendPool` dataclass (the `asyncio.Lock` is not part of the state). -/
structure BackendPool where
  model : String
  backends : List Backend := []
  index : Nat := 0
  deriving Repr, DecidableEq

/-- Body of `BackendPool.add_backend`: the first backend with the same
`(host, port)` is marked healthy (and its partition updated when non-empty);
when there is none, a fresh backend is appended. -/
def addOrReviveBackend (host : String) (port : Nat) (partition : String) :
    List Backend → List Backend
  | [] => [{ host := host, port := port, partition := partition }]
  | b :: bs =>
    if b.host = host ∧ b.port = port then
      { b with healthy := true,
               partition := if partition ≠ "" then partition else b.partition } :: bs
    else b :: addOrReviveBackend host port partition bs

/-- `BackendPool.add_backend`. -/
def BackendPool.add_backend (pool : BackendPool) (host : String) (port : Nat)
    (partition : String := "") : BackendPool :=
  { pool with backends := addOrReviveBackend host port partition pool.backends }

/-- Body of `BackendPool.remove_backend`: drop the first `(host, port)`
match; the flag reports whether anything was removed. -/
def removeFirstBackend (host : String) (port : Nat) :
    List Backend → List Backend × Bool
  | [] => ([], false)
  | b :: bs =>
    if b.host = host ∧ b.port = port then (bs, true)
    else
      let r := removeFirstBackend host port bs
      (b :: r.1, r.2)

/-- `BackendPool.remove_backend`. -/
def BackendPool.remove_backend (pool : BackendPool) (host : String) (port : Nat) :
    BackendPool × Bool :=
  let r := removeFirstBackend host port pool.backends
  ({ pool with backends := r.1 }, r.2)

/-- `BackendPool.get_backend`: filter to healthy backends, select by strategy,
increment the chosen backend's inflight and advance the rotation index — all
one atomic step (the Python does that under the pool lock).  Returns the
chosen backend's position in `pool.backends` together with the new pool. -/
def BackendPool.get_backend (pool : BackendPool) (strategy : String) :
    Option (Nat × BackendPool) :=
  if (pool.backends.filter (fun b => b.healthy)).isEmpty then none
  else
    match select_backend (pool.backends.filter (fun b => b.healthy)) strategy pool.index with
    | none => none
    | some (j, newIdx) =>
      match (positionsFrom (fun b => b.healthy) 0 pool.backends)[j]? with
      | none => none
      | some p =>
        match pool.backends[p]? with
        | none => none
        | some b =>
          some (p, { pool with
                     backends := pool.backends.set p { b with inflight := b.inflight + 1 },
                     index := newIdx })

/-- Apply a function to the backend at position `p` (mutation through the
reference that the Python `get_backend` hands to `_proxy_request`). -/
def BackendPool.updateAt (pool : BackendPool) (p : Nat) (f : Backend → Backend) :
    BackendPool :=
  match pool.backends[p]? with
  | none => pool
  | some b => { pool with backends := pool.backends.set p (f b) }

/-- The `finally:` clause of `_proxy_request`:
`backend.inflight = max(0, backend.inflight - 1)`. -/
def BackendPool.releaseAt (pool : BackendPool) (p : Nat) : BackendPool :=
  pool.updateAt p (fun b => { b with inflight := max 0 (b.inflight - 1) })

/-- Sum of the pool's inflight counters. -/
def BackendPool.totalInflight (pool : BackendPool) : Int :=
  (pool.backends.map (fun b => b.inflight)).sum

/-- The three ways the upstream call of `_proxy_request` can end. -/
inductive Outcome where
  | success (status : Nat) (latency : ℚ)
  | timeout (latency : ℚ)
  | transportError (latency : ℚ)
  deriving Repr, DecidableEq

/-- What `_proxy_request` does to the chosen backend's statistics on each exit
path of the upstream call (`server.py` lines 418–491); the inflight release in
the `finally:` clause is separate (`releaseAt`). -/
def applyOutcome (b : Backend) : Outcome → Backend
  | .success status latency =>
    let b1 := b.record_request latency (status < 500)
    { b1 with consecutive_timeouts := 0 }
  | .timeout latency =>
    let b1 := b.record_request latency false
    let b2 := { b1 with consecutive_timeouts := b1.consecutive_timeouts + 1 }
    if 3 ≤ b2.consecutive_timeouts then { b2 with healthy := false } else b2
  | .transportError latency =>
    let b1 := b.record_request latency false
    { b1 with healthy := false }

/-- HTTP status the client sees on each upstream outcome: the backend status
forwarded verbatim, 504 on timeout, 502 on transport error. -/
def outcomeStatus : Outcome → Nat
  | .success status _ => status
  | .timeout _ => 504
  | .transportError _ => 502

/-- One whole request against a pool, after the pool has been resolved:
acquire a backend (`get_backend`), run the upstream call with outcome `o`,
and release the inflight counter in the `finally:` clause.  `none` is the
no-healthy-backend case (HTTP 503 upstream of this function). -/
def dispatchRequest (pool : BackendPool) (strategy : String) (o : Outcome) :
    Option (Nat × BackendPool) :=
  match pool.get_backend strategy with
  | none => none
  | some (p, pool1) =>
    some (outcomeStatus o, (pool1.updateAt p (fun b => applyOutcome b o)).releaseAt p)

/-- `_proxy_request` seen at pool level: a failed acquire is HTTP 503 with the
pool untouched. -/
def proxyPoolStep (pool : BackendPool) (strategy : String) (o : Outcome) :
    Nat × BackendPool :=
  match dispatchRequest pool strategy o with
  | none => (503, pool)
  | some r => r

/-! ### Basic lemmas about the pool embedding -/

theorem map_sum_set (f : Backend → Int) (l : List Backend) (p : Nat) (b b' : Backend)
    (h : l[p]? = some b) :
    ((l.set p b').map f).sum = (l.map f).sum + f b' - f b := by
  induction l generalizing p with
  | nil => simp at h
  | cons a as ih =>
    cases p with
    | zero =>
      simp only [List.getElem?_cons_zero, Option.some.injEq] at h
      subst h
      simp [List.sum_cons]
      ring
    | succ p =>
      simp only [List.getElem?_cons_succ] at h
      simp only [List.set_cons_succ, List.map_cons, List.sum_cons, ih p h]
      ring

theorem positionsFrom_length (q : Backend → Bool) (l : List Backend) (n : Nat) :
    (positionsFrom q n l).length = (l.filter q).length := by
  induction l generalizing n with
  | nil => rfl
  | cons a as ih =>
    by_cases hq : q a
    · simp [positionsFrom, List.filter_cons, hq, ih]
    · simp [positionsFrom, List.filter_cons, hq, ih]

theorem positionsFrom_get? (q : Backend → Bool) (l : List Backend) :
    ∀ (n j p : Nat), (positionsFrom q n l)[j]? = some p →
      n ≤ p ∧ ∃ b, l[p - n]? = some b ∧ (l.filter q)[j]? = some b := by
  induction l with
  | nil => intro n j p h; simp [positionsFrom] at h
  | cons a as ih =>
    intro n j p h
    by_cases hq : q a
    · simp only [positionsFrom, if_pos hq] at h
      cases j with
      | zero =>
        simp only [List.getElem?_cons_zero, Option.some.injEq] at h
        subst h
        refine ⟨le_refl _, a, ?_, ?_⟩
        · simp
        · simp [List.filter_cons, hq]
      | succ j =>
        simp only [List.getElem?_cons_succ] at h
        obtain ⟨hle, b, hget, hfil⟩ := ih (n + 1) j p h
        refine ⟨by omega, b, ?_, ?_⟩
        · have hpn : p - n = (p - (n + 1)) + 1 := by omega
          rw [hpn]
          simpa using hget
        · simp [List.filter_cons, hq, hfil]
    · simp only [positionsFrom, if_neg hq] at h
      obtain ⟨hle, b, hget, hfil⟩ := ih (n + 1) j p h
      refine ⟨by omega, b, ?_, ?_⟩
      · have hpn : p - n = (p - (n + 1)) + 1 := by omega
        rw [hpn]
        simpa using hget
      · simp [List.filter_cons, hq, hfil]

theorem positionsFrom_zero_get? {q : Backend → Bool} {l : List Backend} {j p : Nat}
    (h : (positionsFrom q 0 l)[j]? = some p) :
    ∃ b, l[p]? = some b ∧ q b = true ∧ (l.filter q)[j]? = some b := by
  obtain ⟨-, b, hget, hfil⟩ := positionsFrom_get? q l 0 j p h
  simp only [Nat.sub_zero] at hget
  refine ⟨b, hget, ?_, hfil⟩
  have hmem : b ∈ l.filter q := List.getElem?_mem hfil
  exact (List.mem_filter.mp hmem).2

theorem tiedPick_lt {backends : List Backend} {key : Backend → ℚ} {idx j k : Nat}
    (h : tiedPick backends key idx = some (j, k)) : j < backends.length := by
  unfold tiedPick at h
  cases hm : backends.map key with
  | nil => rw [hm] at h; simp at h
  | cons k0 ks =>
    rw [hm] at h
    simp only at h
    set tied := positionsFrom (fun b => key b = ks.foldl min k0) 0 backends with htied
    by_cases he : tied.isEmpty
    · rw [if_pos he] at h; simp at h
    · rw [if_neg he] at h
      simp only [Option.some.injEq, Prod.mk.injEq] at h
      obtain ⟨hj, -⟩ := h
      have hlen : 0 < tied.length := by
        cases t : tied with
        | nil => rw [t] at he; simp at he
        | cons x xs => simp [t]
      have hmod : idx % tied.length < tied.length := Nat.mod_lt _ hlen
      have hsome : tied[idx % tied.length]? = some tied[idx % tied.length] :=
        List.getElem?_eq_getElem hmod
      have hgetD : tied.getD (idx % tied.length) 0 = tied[idx % tied.length] := by
        rw [List.getD_eq_getElem?_getD, hsome]; rfl
      obtain ⟨b, hb, -, -⟩ := positionsFrom_zero_get? (q := fun b => key b = ks.foldl min k0)
        (l := backends) hsome
      rw [← hj, hgetD]
      exact (List.getElem?_eq_some.mp hb).1

theorem select_backend_lt {backends : List Backend} {s : String} {idx j k : Nat}
    (hne : backends ≠ []) (h : select_backend backends s idx = some (j, k)) :
    j < backends.length := by
  unfold select_backend at h
  rw [if_neg (by simpa [List.isEmpty_iff] using hne)] at h
  have hlen : 0 < backends.length := List.length_pos.mpr hne
  split at h
  · simp only [Option.some.injEq, Prod.mk.injEq] at h
    obtain ⟨hj, -⟩ := h
    rw [← hj]; exact Nat.mod_lt _ hlen
  · split at h
    · exact tiedPick_lt h
    · split at h
      · exact tiedPick_lt h
      · split at h
        · exact tiedPick_lt h
        · simp only [Option.some.injEq, Prod.mk.injEq] at h
          obtain ⟨hj, -⟩ := h
          omega

/-- Characterization of a successful `get_backend`: the chosen position holds a
healthy backend and the only state change is its inflight counter plus one and
the advanced rotation index. -/
theorem get_backend_some {pool : BackendPool} {s : String} {p : Nat} {pool' : BackendPool}
    (h : pool.get_backend s = some (p, pool')) :
    ∃ b, pool.backends[p]? = some b ∧ b.healthy = true ∧
      pool'.backends = pool.backends.set p { b with inflight := b.inflight + 1 } ∧
      pool'.model = pool.model := by
  unfold BackendPool.get_backend at h
  split at h
  · simp at h
  · split at h
    · simp at h
    · rename_i j newIdx hsel
      split at h
      · simp at h
      · rename_i p0 hpos
        split at h
        · simp at h
        · rename_i b hget
          simp only [Option.some.injEq, Prod.mk.injEq] at h
          obtain ⟨hp, hpool⟩ := h
          subst hp
          obtain ⟨b', hb', hhealthy, -⟩ := positionsFrom_zero_get? hpos
          rw [hget] at hb'
          injection hb' with hb'
          subst hb'
          exact ⟨b, hget, hhealthy, by rw [← hpool], by rw [← hpool]⟩

theorem applyOutcome_inflight (b : Backend) (o : Outcome) :
    (applyOutcome b o).inflight = b.inflight := by
  cases o <;> simp only [applyOutcome, Backend.record_request] <;> split_ifs <;> rfl

theorem applyOutcome_host (b : Backend) (o : Outcome) :
    (applyOutcome b o).host = b.host := by
  cases o <;> simp only [applyOutcome, Backend.record_request] <;> split_ifs <;> rfl

theorem totalInflight_updateAt (pool : BackendPool) (p : Nat) (f : Backend → Backend)
    (b : Backend) (h : pool.backends[p]? = some b) :
    (pool.updateAt p f).totalInflight
      = pool.totalInflight + (f b).inflight - b.inflight := by
  unfold BackendPool.updateAt
  rw [h]
  simp only [BackendPool.totalInflight]
  exact map_sum_set _ _ _ _ _ h

theorem updateAt_backends (pool : BackendPool) (p : Nat) (f : Backend → Backend)
    (b : Backend) (h : pool.backends[p]? = some b) :
    (pool.updateAt p f).backends = pool.backends.set p (f b) := by
  unfold BackendPool.updateAt
  rw [h]

/-- **C1.** Pool inflight accounting of `_proxy_request`:
`get_backend` increments exactly the chosen backend's inflight counter by 1
(one outstanding acquire), and for every way the proxied request can end
(success, timeout, transport error — `dispatchRequest` covers them all, with
the decrement floored at 0 in the `finally:` clause), the pool's total
inflight returns to its value at dispatch time and no inflight counter is
ever negative. -/
theorem C1_inflight_conservation (pool : BackendPool) (strategy : String) (o : Outcome)
    (hnn : ∀ b ∈ pool.backends, 0 ≤ b.inflight) :
    (∀ p pool1, pool.get_backend strategy = some (p, pool1) →
        pool1.totalInflight = pool.totalInflight + 1 ∧
        (∃ b, pool.backends[p]? = some b ∧
          pool1.backends[p]? = some { b with inflight := b.inflight + 1 } ∧
          (∀ b1 ∈ pool1.backends, 0 ≤ b1.inflight) ∧
          ∀ q2, q2 ≠ p → pool1.backends[q2]? = pool.backends[q2]?)) ∧
    (∀ st pool2, dispatchRequest pool strategy o = some (st, pool2) →
        pool2.totalInflight = pool.totalInflight ∧ ∀ b ∈ pool2.backends, 0 ≤ b.inflight) := by
  constructor
  · intro p pool1 hgb
    obtain ⟨b, hb, -, hset, -⟩ := get_backend_some hgb
    have hplen : p < pool.backends.length := (List.getElem?_eq_some.mp hb).1
    refine ⟨?_, b, hb, ?_, ?_, ?_⟩
    · show (pool1.backends.map (fun b => b.inflight)).sum = _
      rw [hset, map_sum_set _ _ _ _ _ hb]
      simp only [BackendPool.totalInflight]
      ring
    · rw [hset]
      exact List.getElem?_set_self hplen
    · intro b1 hb1
      rw [hset] at hb1
      rcases List.mem_or_eq_of_mem_set hb1 with hmem | heq
      · exact hnn b1 hmem
      · subst heq
        have := hnn b (List.getElem?_mem hb)
        simp only
        omega
    · intro q2 hq2
      rw [hset]
      exact List.getElem?_set_ne (Ne.symm hq2)
  · intro st pool2 hd
    unfold dispatchRequest at hd
    cases hgb : pool.get_backend strategy with
    | none => rw [hgb] at hd; simp at hd
    | some r =>
      obtain ⟨p, pool1⟩ := r
      rw [hgb] at hd
      simp only [Option.some.injEq, Prod.mk.injEq] at hd
      obtain ⟨-, hpool2⟩ := hd
      obtain ⟨b, hb, -, hset, -⟩ := get_backend_some hgb
      have hplen : p < pool.backends.length := (List.getElem?_eq_some.mp hb).1
      have hbnn : 0 ≤ b.inflight := hnn b (List.getElem?_mem hb)
      set b1 : Backend := { b with inflight := b.inflight + 1 } with hb1def
      have hget1 : pool1.backends[p]? = some b1 := by
        rw [hset]; exact List.getElem?_set_self hplen
      have htot1 : pool1.totalInflight = pool.totalInflight + 1 := by
        show (pool1.backends.map (fun b => b.inflight)).sum = _
        rw [hset, map_sum_set _ _ _ _ _ hb]
        simp only [BackendPool.totalInflight]
        ring
      set mid : BackendPool := pool1.updateAt p (fun b => applyOutcome b o) with hmiddef
      have hmidbe : mid.backends = pool1.backends.set p (applyOutcome b1 o) :=
        updateAt_backends _ _ _ _ hget1
      have hmidlen : p < mid.backends.length := by
        rw [hmidbe, List.length_set, hset, List.length_set]
        exact hplen
      have hgetmid : mid.backends[p]? = some (applyOutcome b1 o) := by
        rw [hmidbe]
        exact List.getElem?_set_self (by rw [hset, List.length_set]; exact hplen)
      have htotmid : mid.totalInflight = pool1.totalInflight := by
        rw [totalInflight_updateAt pool1 p _ b1 hget1, applyOutcome_inflight]
        ring
      have habinf : (applyOutcome b1 o).inflight = b.inflight + 1 := by
        rw [applyOutcome_inflight]
      have hrel : pool2.backends
          = mid.backends.set p
            { applyOutcome b1 o with inflight := max 0 ((applyOutcome b1 o).inflight - 1) } := by
        rw [← hpool2]
        exact updateAt_backends _ _ _ _ hgetmid
      have hmax : max 0 ((applyOutcome b1 o).inflight - 1) = b.inflight := by
        rw [habinf]
        omega
      constructor
      · have : pool2.totalInflight
            = mid.totalInflight + max 0 ((applyOutcome b1 o).inflight - 1)
              - (applyOutcome b1 o).inflight := by
          rw [← hpool2]
          exact totalInflight_updateAt mid p _ _ hgetmid
        rw [this, hmax, habinf, htotmid, htot1]
        ring
      · intro b2 hb2
        rw [hrel] at hb2
        rcases List.mem_or_eq_of_mem_set hb2 with hmem | heq
        · rw [hmidbe] at hmem
          rcases List.mem_or_eq_of_mem_set hmem with hmem1 | heq1
          · rw [hset] at hmem1
            rcases List.mem_or_eq_of_mem_set hmem1 with hmem0 | heq0
            · exact hnn b2 hmem0
            · subst heq0; simp only [hb1def]; omega
          · subst heq1
            rw [applyOutcome_inflight]
            simp only [hb1def]
            omega
        · subst heq
          simp only [hmax]
          exact hbnn

/-- A concrete two-backend pool used to instantiate the pool theorems. -/
def samplePool : BackendPool :=
  { model := "m",
    backends := [{ host := "127.0.0.1", port := 5900 }, { host := "127.0.0.1", port := 5910 }] }

/-- Concrete instantiation of `C1_inflight_conservation`: a two-backend pool,
one request ending in success; the nonnegativity hypothesis is discharged by
computation. -/
theorem C1_inflight_conservation_witness :
    (∀ b ∈ samplePool.backends, 0 ≤ b.inflight) ∧
    ((∀ p pool1, samplePool.get_backend "round_robin" = some (p, pool1) →
        pool1.totalInflight = samplePool.totalInflight + 1 ∧
        (∃ b, samplePool.backends[p]? = some b ∧
          pool1.backends[p]? = some { b with inflight := b.inflight + 1 } ∧
          (∀ b1 ∈ pool1.backends, 0 ≤ b1.inflight) ∧
          ∀ q2, q2 ≠ p → pool1.backends[q2]? = samplePool.backends[q2]?)) ∧
      (∀ st pool2, dispatchRequest samplePool "round_robin" (.success 200 0) = some (st, pool2) →
        pool2.totalInflight = samplePool.totalInflight ∧ ∀ b ∈ pool2.backends, 0 ≤ b.inflight)) :=
  ⟨by decide, C1_inflight_conservation samplePool "round_robin" (.success 200 0) (by decide)⟩

theorem record_request_consec (b : Backend) (l : ℚ) (s : Bool) :
    (b.record_request l s).consecutive_timeouts = b.consecutive_timeouts := by
  simp only [Backend.record_request]
  split_ifs <;> rfl

theorem applyOutcome_timeout_consec (b : Backend) (l : ℚ) :
    (applyOutcome b (.timeout l)).consecutive_timeouts = b.consecutive_timeouts + 1 := by
  simp only [applyOutcome]
  split_ifs <;> simp [record_request_consec]

theorem applyOutcome_timeout_healthy (b : Backend) (l : ℚ)
    (h : 3 ≤ b.consecutive_timeouts + 1) :
    (applyOutcome b (.timeout l)).healthy = false := by
  simp only [applyOutcome, record_request_consec]
  rw [if_pos h]

theorem get_backend_none_of_unhealthy (pool : BackendPool) (strategy : String)
    (h : ∀ bb ∈ pool.backends, bb.healthy = false) :
    pool.get_backend strategy = none := by
  unfold BackendPool.get_backend
  rw [if_pos]
  rw [List.isEmpty_iff, List.filter_eq_nil_iff]
  intro a ha
  simp [h a ha]

/-- **C2.** Timeout escalation and healthy-only selection: three consecutive
upstream timeouts drive any backend to `healthy = false` (each one bumps
`consecutive_timeouts`, and the flag flips as soon as the counter reaches 3);
`get_backend` only ever returns a backend whose healthy flag was true at the
moment of the acquire; a pool with no healthy backend yields HTTP 503 with
the pool unchanged; and a dispatched request that times out yields HTTP 504. -/
theorem C2_timeout_escalation (b : Backend) (l1 l2 l3 : ℚ)
    (pool : BackendPool) (strategy : String) :
    (applyOutcome (applyOutcome (applyOutcome b (.timeout l1)) (.timeout l2))
        (.timeout l3)).healthy = false ∧
    (∀ p pool', pool.get_backend strategy = some (p, pool') →
        ∃ bb, pool.backends[p]? = some bb ∧ bb.healthy = true) ∧
    ((∀ bb ∈ pool.backends, bb.healthy = false) →
        proxyPoolStep pool strategy (.timeout l1) = (503, pool)) ∧
    (∀ st pool2, dispatchRequest pool strategy (.timeout l1) = some (st, pool2) →
        st = 504) := by
  refine ⟨?_, ?_, ?_, ?_⟩
  · apply applyOutcome_timeout_healthy
    rw [applyOutcome_timeout_consec, applyOutcome_timeout_consec]
    omega
  · intro p pool' hgb
    obtain ⟨bb, hb, hh, -, -⟩ := get_backend_some hgb
    exact ⟨bb, hb, hh⟩
  · intro h
    unfold proxyPoolStep dispatchRequest
    rw [get_backend_none_of_unhealthy pool strategy h]
  · intro st pool2 hd
    unfold dispatchRequest at hd
    cases hgb : pool.get_backend strategy with
    | none => rw [hgb] at hd; simp at hd
    | some r =>
      obtain ⟨p, pool1⟩ := r
      rw [hgb] at hd
      simp only [Option.some.injEq, Prod.mk.injEq] at hd
      exact hd.1.symm

/-- A backend that has already seen two consecutive timeouts. -/
def sampleBackend : Backend := { host := "127.0.0.1", port := 5900 }

/-- A pool whose single backend is unhealthy. -/
def sickPool : BackendPool :=
  { model := "m", backends := [{ host := "127.0.0.1", port := 5900, healthy := false }] }

/-- Concrete instantiation of `C2_timeout_escalation`: a fresh backend is
unhealthy after three straight timeouts, and the all-unhealthy pool answers
503 with its state untouched. -/
theorem C2_timeout_escalation_witness :
    (applyOutcome (applyOutcome (applyOutcome sampleBackend (.timeout 1)) (.timeout 1))
        (.timeout 1)).healthy = false ∧
    proxyPoolStep sickPool "least_load" (.timeout 1) = (503, sickPool) :=
  ⟨(C2_timeout_escalation sampleBackend 1 1 1 sickPool "least_load").1,
   (C2_timeout_escalation sampleBackend 1 1 1 sickPool "least_load").2.2.1 (by decide)⟩

theorem positionsFrom_all_get? {q : Backend → Bool} {l : List Backend}
    (hall : ∀ b ∈ l, q b = true) :
    ∀ (n j : Nat), j < l.length → (positionsFrom q n l)[j]? = some (n + j) := by
  induction l with
  | nil => intro n j h; simp at h
  | cons a as ih =>
    intro n j h
    have hq : q a = true := hall a (by simp)
    simp only [positionsFrom, if_pos hq]
    cases j with
    | zero => simp
    | succ j =>
      simp only [List.getElem?_cons_succ]
      rw [ih (fun b hb => hall b (by simp [hb])) (n + 1) j (by simpa using h)]
      congr 1
      omega

/-- On an all-healthy pool, one round-robin `get_backend` picks position
`index % n`, bumps that backend's inflight, and advances the index by one. -/
theorem get_backend_rr {pool : BackendPool}
    (hall : ∀ b ∈ pool.backends, b.healthy = true) (hne : pool.backends ≠ []) :
    ∃ b, pool.backends[pool.index % pool.backends.length]? = some b ∧
      pool.get_backend "round_robin"
        = some (pool.index % pool.backends.length,
            { pool with
              backends := pool.backends.set (pool.index % pool.backends.length)
                  { b with inflight := b.inflight + 1 },
              index := pool.index + 1 }) := by
  have hfil : pool.backends.filter (fun b => b.healthy) = pool.backends :=
    List.filter_eq_self.mpr (fun a ha => hall a ha)
  have hlen : 0 < pool.backends.length := List.length_pos.mpr hne
  have hmod : pool.index % pool.backends.length < pool.backends.length :=
    Nat.mod_lt _ hlen
  obtain ⟨b, hb⟩ : ∃ b, pool.backends[pool.index % pool.backends.length]? = some b :=
    ⟨_, List.getElem?_eq_getElem hmod⟩
  refine ⟨b, hb, ?_⟩
  unfold BackendPool.get_backend
  rw [hfil]
  rw [if_neg (by simpa [List.isEmpty_iff] using hne)]
  have hsel : select_backend pool.backends "round_robin" pool.index
      = some (pool.index % pool.backends.length, pool.index + 1) := by
    unfold select_backend
    rw [if_neg (by simpa [List.isEmpty_iff] using hne), if_pos rfl]
  rw [hsel]
  dsimp only
  have hpos : (positionsFrom (fun b => b.healthy) 0 pool.backends)[pool.index % pool.backends.length]?
      = some (pool.index % pool.backends.length) := by
    have := positionsFrom_all_get? (q := fun b => b.healthy) hall 0
      (pool.index % pool.backends.length) hmod
    simpa using this
  rw [hpos]
  dsimp only
  rw [hb]

/-- `n` sequential `get_backend` acquisitions, collecting the chosen pool
positions (scenario of §8 invariant 7). -/
def acquireN (pool : BackendPool) (strategy : String) : Nat → List Nat × BackendPool
  | 0 => ([], pool)
  | n + 1 =>
    match pool.get_backend strategy with
    | none => ([], pool)
    | some (p, pool1) =>
      let r := acquireN pool1 strategy n
      (p :: r.1, r.2)

theorem acquireN_rr_positions {n : Nat} (hn : 0 < n) :
    ∀ (m : Nat) (pool : BackendPool),
      (∀ b ∈ pool.backends, b.healthy = true) → pool.backends.length = n →
      (acquireN pool "round_robin" m).1
        = (List.range m).map (fun k => (pool.index + k) % n) := by
  intro m
  induction m with
  | zero => intro pool _ _; simp [acquireN]
  | succ m ih =>
    intro pool hall hlen
    have hne : pool.backends ≠ [] := by
      intro hnil
      rw [hnil] at hlen
      simp at hlen
      omega
    obtain ⟨b, hb, hstep⟩ := get_backend_rr hall hne
    simp only [acquireN, hstep]
    have hall1 : ∀ b1 ∈ pool.backends.set (pool.index % pool.backends.length)
        { b with inflight := b.inflight + 1 }, b1.healthy = true := by
      intro b1 hb1
      rcases List.mem_or_eq_of_mem_set hb1 with hmem | heq
      · exact hall b1 hmem
      · subst heq
        exact hall b (List.getElem?_mem hb)
    have hlen1 : (pool.backends.set (pool.index % pool.backends.length)
        { b with inflight := b.inflight + 1 }).length = n := by
      rw [List.length_set]; exact hlen
    rw [ih _ hall1 hlen1]
    simp only [hlen]
    rw [List.range_succ_eq_map, List.map_cons, List.map_map]
    congr 1
    apply List.map_congr_left
    intro k _
    simp only [Function.comp_apply, Nat.succ_eq_add_one]
    congr 1
    omega

theorem consecutive_mod_nodup (i n : Nat) :
    ((List.range n).map (fun k => (i + k) % n)).Nodup := by
  apply List.Nodup.map_on _ (List.nodup_range n)
  intro x hx y hy hxy
  rw [List.mem_range] at hx hy
  have hmx : i + x ≡ i + y [MOD n] := hxy
  have := Nat.ModEq.add_left_cancel' i hmx
  have hxy2 : x % n = y % n := this
  rwa [Nat.mod_eq_of_lt hx, Nat.mod_eq_of_lt hy] at hxy2

theorem consecutive_mod_perm_range (i n : Nat) (hn : 0 < n) :
    ((List.range n).map (fun k => (i + k) % n)).Perm (List.range n) := by
  apply List.Subperm.perm_of_length_le
  · apply List.subperm_of_subset (consecutive_mod_nodup i n)
    intro x hx
    rw [List.mem_map] at hx
    obtain ⟨k, -, hk⟩ := hx
    rw [List.mem_range, ← hk]
    exact Nat.mod_lt _ hn
  · simp

/-- **C3.** Round-robin fairness: on a pool of `n ≥ 2` healthy backends each
single acquire under `round_robin` chooses position `index % n` and advances
the rotation index by exactly one, and `n` sequential acquires return each
backend (pool position) exactly once — the chosen positions are a permutation
of `0, …, n-1`. -/
theorem C3_round_robin_fairness (pool : BackendPool) (n : Nat)
    (hall : ∀ b ∈ pool.backends, b.healthy = true)
    (hlen : pool.backends.length = n) (hn : 2 ≤ n) :
    (∀ p pool1, pool.get_backend "round_robin" = some (p, pool1) →
        p = pool.index % n ∧ pool1.index = pool.index + 1) ∧
    (acquireN pool "round_robin" n).1.Perm (List.range n) := by
  have hn0 : 0 < n := by omega
  have hne : pool.backends ≠ [] := by
    intro hnil
    rw [hnil] at hlen
    simp at hlen
    omega
  constructor
  · intro p pool1 hgb
    obtain ⟨b, hb, hstep⟩ := get_backend_rr hall hne
    rw [hstep] at hgb
    simp only [Option.some.injEq, Prod.mk.injEq] at hgb
    obtain ⟨hp, hpool⟩ := hgb
    constructor
    · rw [← hp, hlen]
    · rw [← hpool]
  · rw [acquireN_rr_positions hn0 n pool hall hlen]
    exact consecutive_mod_perm_range pool.index n hn0

/-- Concrete instantiation of `C3_round_robin_fairness` on a fresh
two-backend pool. -/
theorem C3_round_robin_fairness_witness :
    (∀ b ∈ samplePool.backends, b.healthy = true) ∧
    samplePool.backends.length = 2 ∧
    (acquireN samplePool "round_robin" 2).1.Perm (List.range 2) :=
  ⟨by decide, by decide,
   (C3_round_robin_fairness samplePool 2 (by decide) (by decide) (by omega)).2⟩

/-! ### Python dict as an insertion-ordered association list

Python dicts preserve insertion order; assigning to an existing key keeps its
position.  All reachable dicts have pairwise-distinct keys. -/

/-- `d.get(k)` / `d[k]` lookup. -/
def lookupD {α : Type} : List (String × α) → String → Option α
  | [], _ => none
  | (k2, v) :: rest, k => if k2 = k then some v else lookupD rest k

/-- `d[k] = v`: overwrite in place, else append. -/
def insertD {α : Type} : List (String × α) → String → α → List (String × α)
  | [], k, v => [(k, v)]
  | (k2, v2) :: rest, k, v =>
    if k2 = k then (k2, v) :: rest else (k2, v2) :: insertD rest k v

/-- `del d[k]` (removes the first occurrence; on a dict, the only one). -/
def eraseD {α : Type} : List (String × α) → String → List (String × α)
  | [], _ => []
  | (k2, v2) :: rest, k => if k2 = k then rest else (k2, v2) :: eraseD rest k

/-- Pairwise-distinct keys: the invariant of every reachable dict. -/
def KeysNodup {α : Type} (m : List (String × α)) : Prop :=
  (m.map Prod.fst).Nodup

instance {α : Type} (m : List (String × α)) : Decidable (KeysNodup m) := by
  unfold KeysNodup
  infer_instance

theorem lookupD_insertD_self {α : Type} (m : List (String × α)) (k : String) (v : α) :
    lookupD (insertD m k v) k = some v := by
  induction m with
  | nil => simp [insertD, lookupD]
  | cons kv rest ih =>
    obtain ⟨k2, v2⟩ := kv
    by_cases h : k2 = k
    · simp [insertD, lookupD, h]
    · simp [insertD, lookupD, h, ih]

theorem lookupD_insertD_ne {α : Type} (m : List (String × α)) (k k' : String) (v : α)
    (h : k ≠ k') : lookupD (insertD m k v) k' = lookupD m k' := by
  induction m with
  | nil => simp [insertD, lookupD, h]
  | cons kv rest ih =>
    obtain ⟨k2, v2⟩ := kv
    by_cases h2 : k2 = k
    · subst h2
      simp [insertD, lookupD, h]
    · simp [insertD, lookupD, h2, ih]

theorem insertD_insertD {α : Type} (m : List (String × α)) (k : String) (v v' : α) :
    insertD (insertD m k v) k v' = insertD m k v' := by
  induction m with
  | nil => simp [insertD]
  | cons kv rest ih =>
    obtain ⟨k2, v2⟩ := kv
    by_cases h : k2 = k
    · simp [insertD, h]
    · simp [insertD, h, ih]

theorem keys_insertD {α : Type} (m : List (String × α)) (k : String) (v : α)
    (h : lookupD m k = none) :
    (insertD m k v).map Prod.fst = m.map Prod.fst ++ [k] := by
  induction m with
  | nil => simp [insertD]
  | cons kv rest ih =>
    obtain ⟨k2, v2⟩ := kv
    by_cases h2 : k2 = k
    · simp [lookupD, h2] at h
    · simp only [lookupD, if_neg h2] at h
      simp [insertD, h2, ih h]

theorem keys_insertD_mem {α : Type} (m : List (String × α)) (k : String) (v : α)
    {v' : α} (h : lookupD m k = some v') :
    (insertD m k v).map Prod.fst = m.map Prod.fst := by
  induction m with
  | nil => simp [lookupD] at h
  | cons kv rest ih =>
    obtain ⟨k2, v2⟩ := kv
    by_cases h2 : k2 = k
    · simp [insertD, h2]
    · simp only [lookupD, if_neg h2] at h
      simp [insertD, h2, ih h]

theorem lookupD_eq_none_iff {α : Type} (m : List (String × α)) (k : String) :
    lookupD m k = none ↔ k ∉ m.map Prod.fst := by
  induction m with
  | nil => simp [lookupD]
  | cons kv rest ih =>
    obtain ⟨k2, v2⟩ := kv
    by_cases h : k2 = k
    · subst h
      simp [lookupD]
    · simp [lookupD, h, ih, Ne.symm h]

theorem KeysNodup.insertD {α : Type} {m : List (String × α)} (h : KeysNodup m)
    (k : String) (v : α) : KeysNodup (AgentInfra.insertD m k v) := by
  unfold KeysNodup at h ⊢
  cases hl : lookupD m k with
  | none =>
    rw [keys_insertD m k v hl]
    have hk : k ∉ m.map Prod.fst := (lookupD_eq_none_iff m k).mp hl
    simp [List.nodup_append, h, hk]
  | some v' =>
    rw [keys_insertD_mem m k v hl]
    exact h

theorem lookupD_mem {α : Type} {m : List (String × α)} {k : String} {v : α}
    (h : lookupD m k = some v) : (k, v) ∈ m := by
  induction m with
  | nil => simp [lookupD] at h
  | cons kv rest ih =>
    obtain ⟨k2, v2⟩ := kv
    by_cases h2 : k2 = k
    · subst h2
      simp only [lookupD, if_true, if_pos] at h
      injection h with h
      subst h
      simp
    · simp only [lookupD, if_neg h2] at h
      simp [ih h]

theorem mem_lookupD {α : Type} {m : List (String × α)} {k : String} {v : α}
    (hnd : KeysNodup m) (h : (k, v) ∈ m) : lookupD m k = some v := by
  induction m with
  | nil => simp at h
  | cons kv rest ih =>
    obtain ⟨k2, v2⟩ := kv
    unfold KeysNodup at hnd
    simp only [List.map_cons, List.nodup_cons] at hnd
    rcases List.mem_cons.mp h with heq | hmem
    · injection heq with h1 h2
      subst h1; subst h2
      simp [lookupD]
    · have hk : k2 ≠ k := by
        intro he
        subst he
        exact hnd.1 (List.mem_map.mpr ⟨(k2, v), hmem, rfl⟩)
      simp only [lookupD, if_neg hk]
      exact ih hnd.2 hmem

theorem mem_of_mem_assoc {α : Type} {m : List (String × α)} {kv : String × α}
    (h : kv ∈ m) : kv.1 ∈ m.map Prod.fst :=
  List.mem_map.mpr ⟨kv, h, rfl⟩

theorem value_unique {α : Type} {m : List (String × α)} {k : String} {v1 v2 : α}
    (hnd : KeysNodup m) (h1 : (k, v1) ∈ m) (h2 : (k, v2) ∈ m) : v1 = v2 := by
  have e1 := mem_lookupD hnd h1
  have e2 := mem_lookupD hnd h2
  rw [e1] at e2
  injection e2

theorem eraseD_eq_filter {α : Type} {m : List (String × α)} (hnd : KeysNodup m)
    (k : String) : eraseD m k = m.filter (fun kv => kv.1 ≠ k) := by
  induction m with
  | nil => rfl
  | cons kv rest ih =>
    obtain ⟨k2, v2⟩ := kv
    unfold KeysNodup at hnd
    simp only [List.map_cons, List.nodup_cons] at hnd
    by_cases h : k2 = k
    · subst h
      have hrest : rest.filter (fun kv => !decide (kv.1 = k2)) = rest := by
        apply List.filter_eq_self.mpr
        intro kv hmem
        simp only [Bool.not_eq_true', decide_eq_false_iff_not]
        intro he
        exact hnd.1 (by rw [← he]; exact mem_of_mem_assoc hmem)
      calc eraseD ((k2, v2) :: rest) k2 = rest := by simp [eraseD]
        _ = ((k2, v2) :: rest).filter (fun kv => decide (kv.1 ≠ k2)) := by
              rw [List.filter_cons]
              simp [hrest]
    · simp only [eraseD, if_neg h, List.filter_cons]
      rw [if_pos (by simp [h]), ih hnd.2]

theorem KeysNodup.filter {α : Type} {m : List (String × α)} (hnd : KeysNodup m)
    (q : String × α → Bool) : KeysNodup (m.filter q) := by
  unfold KeysNodup at hnd ⊢
  induction m with
  | nil => simp
  | cons kv rest ih =>
    simp only [List.map_cons, List.nodup_cons] at hnd
    rw [List.filter_cons]
    by_cases h : q kv
    · simp only [if_pos h, List.map_cons, List.nodup_cons]
      refine ⟨fun hmem => hnd.1 ?_, ih hnd.2⟩
      rw [List.mem_map] at hmem ⊢
      obtain ⟨x, hx, he⟩ := hmem
      exact ⟨x, List.mem_of_mem_filter hx, he⟩
    · simp only [if_neg h]
      exact ih hnd.2

theorem foldl_eraseD_eq_filter {α : Type} :
    ∀ (rids : List String) (m : List (String × α)), KeysNodup m →
      rids.foldl eraseD m = m.filter (fun kv => !rids.contains kv.1) := by
  intro rids
  induction rids with
  | nil =>
    intro m _
    simp
  | cons r rs ih =>
    intro m hnd
    simp only [List.foldl_cons]
    rw [eraseD_eq_filter hnd r]
    rw [ih _ (hnd.filter _), List.filter_filter]
    apply List.filter_congr
    intro kv _
    by_cases h1 : kv.1 = r
    · simp [h1, List.contains_cons]
    · by_cases h2 : rs.contains kv.1
      · simp [h1, h2, List.contains_cons, Ne.symm h1]
      · simp [h1, h2, List.contains_cons, Ne.symm h1]

theorem lookupD_filter {α : Type} {m : List (String × α)} (hnd : KeysNodup m)
    (q : String × α → Bool) (k : String) :
    lookupD (m.filter q) k
      = match lookupD m k with
        | none => none
        | some v => if q (k, v) then some v else none := by
  induction m with
  | nil => simp [lookupD]
  | cons kv rest ih =>
    obtain ⟨k2, v2⟩ := kv
    unfold KeysNodup at hnd
    simp only [List.map_cons, List.nodup_cons] at hnd
    rw [List.filter_cons]
    by_cases hq : q (k2, v2)
    · rw [if_pos hq]
      by_cases h : k2 = k
      · subst h
        simp [lookupD, hq]
      · simp only [lookupD, if_neg h]
        exact ih hnd.2
    · rw [if_neg (by simpa using hq)]
      by_cases h : k2 = k
      · subst h
        rw [ih hnd.2]
        have : lookupD rest k2 = none := by
          rw [lookupD_eq_none_iff]
          exact hnd.1
        simp [lookupD, this, hq]
      · simp only [lookupD, if_neg h]
        exact ih hnd.2

/-! ### Request tracker (`agent_infra/proxy/tracker.py`) -/

/-- `TrackedRequest` dataclass. -/
structure TrackedRequest where
  request_id : String
  source : String
  model : String
  path : String
  submitted_at : Int
  started_at : Option Int := none
  completed_at : Option Int := none
  backend : Option String := none
  status : String := "pending"
  session_id : Option String := none
  task_id : Option String := none
  client_id : Option String := none
  client_command : Option String := none
  request_summary : Option String := none
  response_summary : Option String := none
  backend_time_ms : Option ℚ := none
  agent_pre_ms : Option ℚ := none
  agent_post_ms : Option ℚ := none
  turn_number : Option Nat := none
  deriving Repr, DecidableEq

/-- `RequestTracker` state: the request store, the eviction parameters and the
per-session turn counters (the lock and the task handle are not state). -/
structure RequestTracker where
  requests : List (String × TrackedRequest) := []
  max_history : Nat := 1000
  cleanup_interval : Int := 60
  stale_timeout : Int := 600
  session_turn_counters : List (String × Nat) := []
  deriving Repr, DecidableEq

/-- Python truthiness of an optional string (`if session_id:`). -/
def truthyStr : Option String → Bool
  | none => false
  | some s => s ≠ ""

/-- `RequestTracker.submit`: register a fresh pending request; when the
session id is truthy, increment that session's turn counter and store the new
value as the request's turn number.  Returns the new state and the created
record. -/
def RequestTracker.submit (tr : RequestTracker) (now : Int)
    (request_id source model path : String)
    (session_id : Option String := none) (task_id : Option String := none)
    (client_id : Option String := none) (client_command : Option String := none) :
    RequestTracker × TrackedRequest :=
  let tc :=
    if truthyStr session_id then
      let s := session_id.getD ""
      let counter := (lookupD tr.session_turn_counters s).getD 0 + 1
      (some counter, insertD tr.session_turn_counters s counter)
    else (none, tr.session_turn_counters)
  let req : TrackedRequest :=
    { request_id := request_id, source := source, model := model, path := path,
      submitted_at := now, status := "pending", session_id := session_id,
      task_id := task_id, client_id := client_id, client_command := client_command,
      turn_number := tc.1 }
  ({ tr with requests := insertD tr.requests request_id req,
             session_turn_counters := tc.2 }, req)

/-- `RequestTracker.start_processing`: mark in-flight; no-op on unknown id. -/
def RequestTracker.start_processing (tr : RequestTracker) (now : Int)
    (request_id backend : String) : RequestTracker :=
  match lookupD tr.requests request_id with
  | none => tr
  | some req =>
    let req2 := { req with started_at := some now, backend := some backend, status := "in_flight" }
    { tr with requests := insertD tr.requests request_id req2 }

/-- `RequestTracker.complete`: mark completed/failed; no-op on unknown id. -/
def RequestTracker.complete (tr : RequestTracker) (now : Int)
    (request_id : String) (success : Bool := true) : RequestTracker :=
  match lookupD tr.requests request_id with
  | none => tr
  | some req =>
    let req2 := { req with completed_at := some now, status := if success then "completed" else "failed" }
    { tr with requests := insertD tr.requests request_id req2 }

/-- `req.status in ("completed", "failed")`. -/
def isDone (req : TrackedRequest) : Bool :=
  req.status = "completed" || req.status = "failed"

/-- `req.status in ("pending", "in_flight")`. -/
def isActive (req : TrackedRequest) : Bool :=
  req.status = "pending" || req.status = "in_flight"

/-- Condition of pass 1 of `_cleanup_old_requests`: done, with a truthy
`completed_at` older than the cutoff. -/
def expiredDone (req : TrackedRequest) (cutoff : Int) : Bool :=
  isDone req &&
    (match req.completed_at with
     | none => false
     | some t => t ≠ 0 && t < cutoff)

/-- Condition of pass 2: pending/in-flight submitted before the stale cutoff. -/
def staleActive (req : TrackedRequest) (staleCutoff : Int) : Bool :=
  isActive req && req.submitted_at < staleCutoff

/-- Sort key of pass 3: `completed_at or 0`. -/
def doneKey (req : TrackedRequest) : Int := req.completed_at.getD 0

/-- Stable insertion used by `stableSortByKey`: the new element goes after
every element with a key ≤ its own. -/
def insByKey {α : Type} (key : α → Int) (x : α) : List α → List α
  | [] => [x]
  | y :: ys => if key y ≤ key x then y :: insByKey key x ys else x :: y :: ys

/-- Stable sort by an `Int` key: the embedding of Python's stable
`list.sort(key=...)`.  Elements are inserted left to right, each after all
already-placed elements of smaller-or-equal key, so equal keys keep their
original order. -/
def stableSortByKey {α : Type} (key : α → Int) (l : List α) : List α :=
  l.foldl (fun acc x => insByKey key x acc) []

/-- `RequestTracker._cleanup_old_requests`, passes 1–2: collect the request
ids that are expired-done or stale-active and delete them. -/
def RequestTracker.phase12 (tr : RequestTracker) (now : Int) :
    List (String × TrackedRequest) :=
  let cutoff := now - tr.cleanup_interval
  let staleCutoff := now - tr.stale_timeout
  let toRemove := (tr.requests.filter
      (fun kv => expiredDone kv.2 cutoff || staleActive kv.2 staleCutoff)).map Prod.fst
  toRemove.foldl eraseD tr.requests

/-- `RequestTracker._cleanup_old_requests`: passes 1–2, then, if the store
still exceeds `max_history`, drop the oldest (by `completed_at or 0`, ties in
insertion order) completed/failed entries, `excess`-many. -/
def RequestTracker.cleanupOldRequests (tr : RequestTracker) (now : Int) :
    RequestTracker :=
  let reqs1 := tr.phase12 now
  if tr.max_history < reqs1.length then
    let completed := reqs1.filter (fun kv => isDone kv.2)
    let sorted := stableSortByKey (fun kv => doneKey kv.2) completed
    let excess := reqs1.length - tr.max_history
    { tr with requests := (((sorted.take excess).map Prod.fst).foldl eraseD reqs1) }
  else
    { tr with requests := reqs1 }

/-! ### Tracker operation traces (for the turn-number invariant) -/

/-- The tracker mutations the proxy can perform. -/
inductive TrackerOp where
  | submitOp (now : Int) (request_id source model path : String)
      (session_id task_id client_id client_command : Option String)
  | startOp (now : Int) (request_id backend : String)
  | completeOp (now : Int) (request_id : String) (success : Bool)
  | cleanupOp (now : Int)
  deriving Repr, DecidableEq

def applyOp (tr : RequestTracker) : TrackerOp → RequestTracker
  | .submitOp now rid src mdl pth sid tid cid cmd =>
    (tr.submit now rid src mdl pth sid tid cid cmd).1
  | .startOp now rid be => tr.start_processing now rid be
  | .completeOp now rid s => tr.complete now rid s
  | .cleanupOp now => tr.cleanupOldRequests now

def runOps (tr : RequestTracker) (ops : List TrackerOp) : RequestTracker :=
  ops.foldl applyOp tr

/-- `session_turn_counters.get(s, 0)`. -/
def sessionCounter (tr : RequestTracker) (s : String) : Nat :=
  (lookupD tr.session_turn_counters s).getD 0

/-- The turn numbers handed out to session `s` along a trace, in order (the
`turn_number` of each record returned by `submit` with session id `s`). -/
def issuedTurns (tr : RequestTracker) (s : String) : List TrackerOp → List Nat
  | [] => []
  | op :: ops =>
    let rest := issuedTurns (applyOp tr op) s ops
    match op with
    | .submitOp now rid src mdl pth sid tid cid cmd =>
      if sid = some s then
        match (tr.submit now rid src mdl pth sid tid cid cmd).2.turn_number with
        | some t => t :: rest
        | none => rest
      else rest
    | _ => rest

theorem submit_counter_self (tr : RequestTracker) (now : Int)
    (rid src mdl pth : String) (tid cid cmd : Option String)
    {s : String} (h : s ≠ "") :
    sessionCounter (tr.submit now rid src mdl pth (some s) tid cid cmd).1 s
        = sessionCounter tr s + 1 ∧
    (tr.submit now rid src mdl pth (some s) tid cid cmd).2.turn_number
        = some (sessionCounter tr s + 1) := by
  have ht : truthyStr (some s) = true := by simp [truthyStr, h]
  unfold RequestTracker.submit
  rw [ht]
  simp only [if_true, Option.getD_some]
  constructor
  · simp [sessionCounter, lookupD_insertD_self]
  · rfl

theorem submit_counter_other (tr : RequestTracker) (now : Int)
    (rid src mdl pth : String) (sid tid cid cmd : Option String)
    {s : String} (h : sid ≠ some s) :
    sessionCounter (tr.submit now rid src mdl pth sid tid cid cmd).1 s
        = sessionCounter tr s := by
  unfold RequestTracker.submit
  cases htr : truthyStr sid with
  | false => simp [htr, sessionCounter]
  | true =>
    cases sid with
    | none => simp [truthyStr] at htr
    | some s2 =>
      have hne : s2 ≠ s := fun he => h (by rw [he])
      simp only [htr, if_true, sessionCounter, Option.getD_some]
      simp [lookupD_insertD_ne _ _ _ _ hne]

theorem submit_turn_none (tr : RequestTracker) (now : Int)
    (rid src mdl pth : String) (sid tid cid cmd : Option String)
    (h : truthyStr sid = false) :
    (tr.submit now rid src mdl pth sid tid cid cmd).2.turn_number = none := by
  unfold RequestTracker.submit
  rw [h]
  rfl

theorem submit_counters_not_truthy (tr : RequestTracker) (now : Int)
    (rid src mdl pth : String) (sid tid cid cmd : Option String)
    (h : truthyStr sid = false) :
    (tr.submit now rid src mdl pth sid tid cid cmd).1.session_turn_counters
      = tr.session_turn_counters := by
  unfold RequestTracker.submit
  rw [h]
  rfl

theorem start_processing_counters (tr : RequestTracker) (now : Int)
    (rid be : String) :
    (tr.start_processing now rid be).session_turn_counters
      = tr.session_turn_counters := by
  unfold RequestTracker.start_processing
  cases lookupD tr.requests rid <;> rfl

theorem complete_counters (tr : RequestTracker) (now : Int) (rid : String)
    (success : Bool) :
    (tr.complete now rid success).session_turn_counters
      = tr.session_turn_counters := by
  unfold RequestTracker.complete
  cases lookupD tr.requests rid <;> rfl

/-- Eviction never touches the session turn counters. -/
theorem cleanup_counters (tr : RequestTracker) (now : Int) :
    (tr.cleanupOldRequests now).session_turn_counters
      = tr.session_turn_counters := by
  unfold RequestTracker.cleanupOldRequests
  by_cases h : tr.max_history < (tr.phase12 now).length
  · simp [h]
  · simp [h]

theorem applyOp_counter_mono (tr : RequestTracker) (op : TrackerOp) (s : String) :
    sessionCounter tr s ≤ sessionCounter (applyOp tr op) s := by
  cases op with
  | submitOp now rid src mdl pth sid tid cid cmd =>
    have happ : applyOp tr (.submitOp now rid src mdl pth sid tid cid cmd)
        = (tr.submit now rid src mdl pth sid tid cid cmd).1 := rfl
    by_cases hsid : sid = some s
    · subst hsid
      by_cases hs : s = ""
      · subst hs
        rw [happ]
        unfold sessionCounter
        rw [submit_counters_not_truthy tr now rid src mdl pth (some "") tid cid cmd rfl]
      · rw [happ, (submit_counter_self tr now rid src mdl pth tid cid cmd hs).1]
        omega
    · rw [happ, submit_counter_other tr now rid src mdl pth sid tid cid cmd hsid]
  | startOp now rid be =>
    simp [applyOp, sessionCounter, start_processing_counters]
  | completeOp now rid su =>
    simp [applyOp, sessionCounter, complete_counters]
  | cleanupOp now =>
    simp [applyOp, sessionCounter, cleanup_counters]

theorem issuedTurns_range (s : String) :
    ∀ (ops : List TrackerOp) (tr : RequestTracker),
      issuedTurns tr s ops
          = List.range' (sessionCounter tr s + 1)
              (sessionCounter (runOps tr ops) s - sessionCounter tr s) ∧
      sessionCounter tr s ≤ sessionCounter (runOps tr ops) s := by
  intro ops
  induction ops with
  | nil =>
    intro tr
    simp [issuedTurns, runOps]
  | cons op ops ih =>
    intro tr
    have hrun : runOps tr (op :: ops) = runOps (applyOp tr op) ops := rfl
    obtain ⟨ihl, ihm⟩ := ih (applyOp tr op)
    have hmono := applyOp_counter_mono tr op s
    have hK : sessionCounter tr s ≤ sessionCounter (runOps tr (op :: ops)) s := by
      rw [hrun]; omega
    refine ⟨?_, hK⟩
    cases op with
    | submitOp now rid src mdl pth sid tid cid cmd =>
      by_cases hsid : sid = some s
      · subst hsid
        by_cases hs : s = ""
        · subst hs
          have hturn : (tr.submit now rid src mdl pth (some "") tid cid cmd).2.turn_number
              = none := submit_turn_none tr now rid src mdl pth (some "") tid cid cmd rfl
          have hc : sessionCounter (applyOp tr (.submitOp now rid src mdl pth (some "") tid cid cmd)) ""
              = sessionCounter tr "" := by
            show sessionCounter (tr.submit now rid src mdl pth (some "") tid cid cmd).1 "" = _
            unfold sessionCounter
            rw [submit_counters_not_truthy tr now rid src mdl pth (some "") tid cid cmd rfl]
          simp only [issuedTurns, if_pos rfl, hturn]
          rw [ihl, hrun, hc]
          simp
        · obtain ⟨hc, hturn⟩ := submit_counter_self tr now rid src mdl pth tid cid cmd hs
          have hcapp : sessionCounter (applyOp tr (.submitOp now rid src mdl pth (some s) tid cid cmd)) s
              = sessionCounter tr s + 1 := hc
          simp only [issuedTurns, if_pos rfl, hturn]
          rw [ihl, hrun, hcapp]
          rw [hcapp] at ihm
          have harith : sessionCounter (runOps (applyOp tr (.submitOp now rid src mdl pth (some s) tid cid cmd)) ops) s
              - sessionCounter tr s
              = (sessionCounter (runOps (applyOp tr (.submitOp now rid src mdl pth (some s) tid cid cmd)) ops) s
                - (sessionCounter tr s + 1)) + 1 := by omega
          rw [harith, List.range'_succ]
          simp
      · have hc : sessionCounter (applyOp tr (.submitOp now rid src mdl pth sid tid cid cmd)) s
            = sessionCounter tr s :=
          submit_counter_other tr now rid src mdl pth sid tid cid cmd hsid
        simp only [issuedTurns, if_neg hsid]
        rw [ihl, hrun, hc]
    | startOp now rid be =>
      have hc : sessionCounter (applyOp tr (.startOp now rid be)) s = sessionCounter tr s := by
        simp [applyOp, sessionCounter, start_processing_counters]
      simp only [issuedTurns]
      rw [ihl, hrun, hc]
    | completeOp now rid su =>
      have hc : sessionCounter (applyOp tr (.completeOp now rid su)) s = sessionCounter tr s := by
        simp [applyOp, sessionCounter, complete_counters]
      simp only [issuedTurns]
      rw [ihl, hrun, hc]
    | cleanupOp now =>
      have hc : sessionCounter (applyOp tr (.cleanupOp now)) s = sessionCounter tr s := by
        simp [applyOp, sessionCounter, cleanup_counters]
      simp only [issuedTurns]
      rw [ihl, hrun, hc]

/-- **C5.** Turn numbers per session: starting from a fresh tracker, the turn
numbers ever issued to session `s` along any operation trace are exactly
`1, 2, …, K` in order, where `K` is the session's final turn counter; eviction
never touches the counters and no operation decreases them; and the next
submit for `s` — in particular one issued after all of the session's tracked
requests have been evicted — is assigned turn number `K + 1`. -/
theorem C5_turn_numbers (s : String) (trace : List TrackerOp) (h : s ≠ "") :
    issuedTurns ({} : RequestTracker) s trace
        = List.range' 1 (sessionCounter (runOps ({} : RequestTracker) trace) s) ∧
    (∀ (tr : RequestTracker) (now : Int),
        (tr.cleanupOldRequests now).session_turn_counters = tr.session_turn_counters) ∧
    (∀ (tr : RequestTracker) (op : TrackerOp),
        sessionCounter tr s ≤ sessionCounter (applyOp tr op) s) ∧
    (∀ (now : Int) (rid src mdl pth : String) (tid cid cmd : Option String),
        ((runOps ({} : RequestTracker) trace).submit now rid src mdl pth
            (some s) tid cid cmd).2.turn_number
          = some (sessionCounter (runOps ({} : RequestTracker) trace) s + 1)) := by
  refine ⟨?_, cleanup_counters, fun tr op => applyOp_counter_mono tr op s, ?_⟩
  · have := (issuedTurns_range s trace ({} : RequestTracker)).1
    simpa [sessionCounter, lookupD] using this
  · intro now rid src mdl pth tid cid cmd
    exact (submit_counter_self _ now rid src mdl pth tid cid cmd h).2

/-- Concrete instantiation of `C5_turn_numbers`: five submits for session
`"S"`, all completed, then an eviction pass that empties the store; the sixth
submit still gets turn number 6 (scenario S5). -/
theorem C5_turn_numbers_witness :
    ("S" ≠ "") ∧
    (let trace : List TrackerOp :=
      [.submitOp 0 "r1" "c" "m" "/v1/x" (some "S") none none none,
       .submitOp 1 "r2" "c" "m" "/v1/x" (some "S") none none none,
       .submitOp 2 "r3" "c" "m" "/v1/x" (some "S") none none none,
       .submitOp 3 "r4" "c" "m" "/v1/x" (some "S") none none none,
       .submitOp 4 "r5" "c" "m" "/v1/x" (some "S") none none none,
       .completeOp 5 "r1" true, .completeOp 5 "r2" true, .completeOp 5 "r3" true,
       .completeOp 5 "r4" true, .completeOp 5 "r5" true,
       .cleanupOp 1000]
     issuedTurns ({} : RequestTracker) "S" trace
        = List.range' 1 (sessionCounter (runOps ({} : RequestTracker) trace) "S") ∧
     (runOps ({} : RequestTracker) trace).requests = [] ∧
     ((runOps ({} : RequestTracker) trace).submit 1001 "r6" "c" "m" "/v1/x"
        (some "S") none none none).2.turn_number = some 6) := by
  refine ⟨by decide, ?_, ?_, ?_⟩
  · exact (C5_turn_numbers "S"
      [.submitOp 0 "r1" "c" "m" "/v1/x" (some "S") none none none,
       .submitOp 1 "r2" "c" "m" "/v1/x" (some "S") none none none,
       .submitOp 2 "r3" "c" "m" "/v1/x" (some "S") none none none,
       .submitOp 3 "r4" "c" "m" "/v1/x" (some "S") none none none,
       .submitOp 4 "r5" "c" "m" "/v1/x" (some "S") none none none,
       .completeOp 5 "r1" true, .completeOp 5 "r2" true, .completeOp 5 "r3" true,
       .completeOp 5 "r4" true, .completeOp 5 "r5" true,
       .cleanupOp 1000] (by decide)).1
  · decide
  · decide

/-! ### Duplicate tracker operations (claim C7) -/

/-- Counterexample to the claim that a duplicate `submit` changes nothing
observable: submitting the same request id twice for session `"S"` consumes a
second turn number — the stored record carries `turn_number = 2` and the
session counter is 2, unlike the state after a single submit. -/
theorem C7_duplicate_submit_counterexample :
    (let tr1 := (({} : RequestTracker).submit 0 "r1" "c" "m" "/v1/x"
        (some "S") none none none).1
     let tr2 := (tr1.submit 0 "r1" "c" "m" "/v1/x" (some "S") none none none).1
     tr2 ≠ tr1 ∧
       lookupD tr1.session_turn_counters "S" = some 1 ∧
       lookupD tr2.session_turn_counters "S" = some 2 ∧
       (lookupD tr2.requests "r1").map (fun r => r.turn_number) = some (some 2)) := by
  decide

/-- **C7 (amended).** `start_processing` and `complete` are last-wins: calling
either twice on the same request id equals a single call with the second
call's arguments.  A duplicate `submit`, however, is *not* a no-op: it
replaces the entry with a fresh pending record whose `submitted_at` is the
second call's time, and when a truthy session id is present it increments the
session's turn counter a second time and stores the new turn number. -/
theorem C7_duplicate_ops (tr : RequestTracker) (now1 now2 : Int)
    (rid be1 be2 : String) (su1 su2 : Bool)
    (src mdl pth : String) (tid cid cmd : Option String) :
    ((tr.start_processing now1 rid be1).start_processing now2 rid be2
        = tr.start_processing now2 rid be2) ∧
    ((tr.complete now1 rid su1).complete now2 rid su2 = tr.complete now2 rid su2) ∧
    (∀ s : String, s ≠ "" →
      (let r1 := tr.submit now1 rid src mdl pth (some s) tid cid cmd
       let r2 := r1.1.submit now2 rid src mdl pth (some s) tid cid cmd
       lookupD r2.1.requests rid = some r2.2 ∧
       r2.2.turn_number = some (sessionCounter tr s + 2) ∧
       r2.2.submitted_at = now2 ∧
       r2.2.status = "pending" ∧
       sessionCounter r2.1 s = sessionCounter tr s + 2)) := by
  refine ⟨?_, ?_, ?_⟩
  · unfold RequestTracker.start_processing
    cases h : lookupD tr.requests rid with
    | none => simp [h]
    | some req => simp [h, lookupD_insertD_self, insertD_insertD]
  · unfold RequestTracker.complete
    cases h : lookupD tr.requests rid with
    | none => simp [h]
    | some req => simp [h, lookupD_insertD_self, insertD_insertD]
  · intro s hs
    have ht : truthyStr (some s) = true := by simp [truthyStr, hs]
    simp only
    unfold RequestTracker.submit
    rw [ht]
    simp [sessionCounter, lookupD_insertD_self, insertD_insertD]

/-- Concrete instantiation of `C7_duplicate_ops`. -/
theorem C7_duplicate_ops_witness :
    ((({} : RequestTracker).start_processing 1 "r1" "b1").start_processing 2 "r1" "b2"
        = ({} : RequestTracker).start_processing 2 "r1" "b2") ∧
    (let r2 := ((({} : RequestTracker).submit 0 "r1" "c" "m" "/p" (some "S")
          none none none).1.submit 1 "r1" "c" "m" "/p" (some "S") none none none)
     r2.2.turn_number = some 2 ∧ r2.2.submitted_at = 1) := by
  refine ⟨(C7_duplicate_ops ({} : RequestTracker) 1 2 "r1" "b1" "b2" true true
      "c" "m" "/p" none none none).1, ?_, ?_⟩
  · have h := ((C7_duplicate_ops ({} : RequestTracker) 0 1 "r1" "b1" "b2" true true
      "c" "m" "/p" none none none).2.2 "S" (by decide)).2.1
    simpa [sessionCounter, lookupD] using h
  · decide

/-! ### Stable sort lemmas (for the eviction pass 3) -/

theorem insByKey_perm {α : Type} (key : α → Int) (x : α) (l : List α) :
    (insByKey key x l).Perm (x :: l) := by
  induction l with
  | nil => simp [insByKey]
  | cons y ys ih =>
    unfold insByKey
    by_cases h : key y ≤ key x
    · rw [if_pos h]
      exact (ih.cons y).trans (List.Perm.swap x y ys)
    · rw [if_neg h]

theorem insByKey_mem {α : Type} {key : α → Int} {x z : α} {l : List α}
    (h : z ∈ insByKey key x l) : z = x ∨ z ∈ l := by
  have := (insByKey_perm key x l).mem_iff.mp h
  simpa using this

theorem insByKey_sorted {α : Type} (key : α → Int) (x : α) {l : List α}
    (h : l.Pairwise (fun a b => key a ≤ key b)) :
    (insByKey key x l).Pairwise (fun a b => key a ≤ key b) := by
  induction l with
  | nil => simp [insByKey]
  | cons y ys ih =>
    rw [List.pairwise_cons] at h
    unfold insByKey
    by_cases hle : key y ≤ key x
    · rw [if_pos hle]
      rw [List.pairwise_cons]
      refine ⟨?_, ih h.2⟩
      intro z hz
      rcases insByKey_mem hz with he | hm
      · rw [he]; exact hle
      · exact h.1 z hm
    · rw [if_neg hle]
      rw [List.pairwise_cons]
      refine ⟨?_, List.pairwise_cons.mpr h⟩
      intro z hz
      rcases List.mem_cons.mp hz with he | hm
      · rw [he]; omega
      · have := h.1 z hm
        omega

theorem foldl_insByKey_perm {α : Type} (key : α → Int) :
    ∀ (l acc : List α),
      (l.foldl (fun acc x => insByKey key x acc) acc).Perm (acc ++ l) := by
  intro l
  induction l with
  | nil => simp
  | cons x xs ih =>
    intro acc
    simp only [List.foldl_cons]
    exact (ih (insByKey key x acc)).trans
      (((insByKey_perm key x acc).append_right xs).trans List.perm_middle.symm)

theorem stableSortByKey_perm {α : Type} (key : α → Int) (l : List α) :
    (stableSortByKey key l).Perm l := by
  have := foldl_insByKey_perm key l []
  simpa [stableSortByKey] using this

theorem foldl_insByKey_sorted {α : Type} (key : α → Int) :
    ∀ (l acc : List α), acc.Pairwise (fun a b => key a ≤ key b) →
      (l.foldl (fun acc x => insByKey key x acc) acc).Pairwise
        (fun a b => key a ≤ key b) := by
  intro l
  induction l with
  | nil => intro acc h; simpa using h
  | cons x xs ih =>
    intro acc h
    simp only [List.foldl_cons]
    exact ih _ (insByKey_sorted key x h)

theorem stableSortByKey_sorted {α : Type} (key : α → Int) (l : List α) :
    (stableSortByKey key l).Pairwise (fun a b => key a ≤ key b) :=
  foldl_insByKey_sorted key l [] (by simp)

/-- Everything kept of the sorted list (the drop) has a key at least as large
as everything removed (the take). -/
theorem sorted_take_le_drop {α : Type} (key : α → Int) (l : List α) (n : Nat)
    {x y : α} (hx : x ∈ (stableSortByKey key l).take n)
    (hy : y ∈ (stableSortByKey key l).drop n) : key x ≤ key y := by
  have hs := stableSortByKey_sorted key l
  rw [← List.take_append_drop n (stableSortByKey key l), List.pairwise_append] at hs
  exact hs.2.2 x hx y hy

/-! ### Erase-fold length lemmas -/

theorem keys_eraseD {α : Type} {m : List (String × α)} (hnd : KeysNodup m)
    (k : String) :
    (eraseD m k).map Prod.fst = (m.map Prod.fst).filter (fun s => s ≠ k) := by
  rw [eraseD_eq_filter hnd k]
  induction m with
  | nil => rfl
  | cons kv rest ih =>
    unfold KeysNodup at hnd
    simp only [List.map_cons, List.nodup_cons] at hnd
    rw [List.filter_cons, List.map_cons, List.filter_cons]
    by_cases h : kv.1 = k
    · rw [if_neg (by simp [h]), if_neg (by simp [h])]
      exact ih hnd.2
    · rw [if_pos (by simp [h]), if_pos (by simp [h]), List.map_cons]
      rw [ih hnd.2]

theorem KeysNodup.eraseD {α : Type} {m : List (String × α)} (hnd : KeysNodup m)
    (k : String) : KeysNodup (AgentInfra.eraseD m k) := by
  rw [eraseD_eq_filter hnd k]
  exact hnd.filter _

theorem eraseD_length_mem {α : Type} {m : List (String × α)} (hnd : KeysNodup m)
    {k : String} (h : k ∈ m.map Prod.fst) :
    (eraseD m k).length = m.length - 1 := by
  induction m with
  | nil => simp at h
  | cons kv rest ih =>
    obtain ⟨k2, v2⟩ := kv
    unfold KeysNodup at hnd
    simp only [List.map_cons, List.nodup_cons] at hnd
    by_cases he : k2 = k
    · simp [AgentInfra.eraseD, he]
    · simp only [List.map_cons] at h
      rcases List.mem_cons.mp h with h1 | h2
      · exact absurd h1.symm he
      · have hlen : 0 < rest.length := by
          cases rest with
          | nil => simp at h2
          | cons a as => simp
        simp only [AgentInfra.eraseD, if_neg he, List.length_cons, ih hnd.2 h2]
        omega

theorem keys_mem_eraseD {α : Type} {m : List (String × α)} (hnd : KeysNodup m)
    {k s : String} (hs : s ∈ m.map Prod.fst) (hne : s ≠ k) :
    s ∈ (eraseD m k).map Prod.fst := by
  rw [keys_eraseD hnd k, List.mem_filter]
  exact ⟨hs, by simpa using hne⟩

theorem foldl_eraseD_length {α : Type} :
    ∀ (rids : List String) (m : List (String × α)), KeysNodup m → rids.Nodup →
      (∀ r ∈ rids, r ∈ m.map Prod.fst) →
      (rids.foldl eraseD m).length = m.length - rids.length := by
  intro rids
  induction rids with
  | nil => intro m _ _ _; simp
  | cons r rs ih =>
    intro m hnd hridnd hsub
    simp only [List.foldl_cons]
    rw [List.nodup_cons] at hridnd
    have hr : r ∈ m.map Prod.fst := hsub r (by simp)
    have hrec := ih (eraseD m r) (hnd.eraseD r) hridnd.2 (fun s hsmem => by
      refine keys_mem_eraseD hnd (hsub s (by simp [hsmem])) ?_
      intro he
      exact hridnd.1 (he ▸ hsmem))
    rw [hrec, eraseD_length_mem hnd hr]
    have hlen : 0 < m.length := by
      cases m with
      | nil => simp at hr
      | cons a as => simp
    simp only [List.length_cons]
    omega

/-- On a dict, deleting the collected expired/stale ids is plain filtering. -/
theorem phase12_eq_filter (tr : RequestTracker) (now : Int)
    (hnd : KeysNodup tr.requests) :
    tr.phase12 now = tr.requests.filter
      (fun kv => !(expiredDone kv.2 (now - tr.cleanup_interval)
                   || staleActive kv.2 (now - tr.stale_timeout))) := by
  unfold RequestTracker.phase12
  rw [foldl_eraseD_eq_filter _ _ hnd]
  apply List.filter_congr
  intro kv hkv
  congr 1
  by_cases hc : (expiredDone kv.2 (now - tr.cleanup_interval)
      || staleActive kv.2 (now - tr.stale_timeout)) = true
  · rw [hc]
    have hm : kv.1 ∈ ((tr.requests.filter (fun kv =>
          expiredDone kv.2 (now - tr.cleanup_interval)
          || staleActive kv.2 (now - tr.stale_timeout))).map Prod.fst) :=
      mem_of_mem_assoc (List.mem_filter.mpr ⟨hkv, hc⟩)
    exact List.elem_iff.mpr hm
  · have hcf : (expiredDone kv.2 (now - tr.cleanup_interval)
        || staleActive kv.2 (now - tr.stale_timeout)) = false := by
      simpa using hc
    rw [hcf]
    rw [Bool.eq_false_iff]
    intro hcontains
    have hmem := List.elem_iff.mp hcontains
    obtain ⟨kv', hkv', he⟩ := List.mem_map.mp hmem
    have hkv'm : kv' ∈ tr.requests := List.mem_of_mem_filter hkv'
    have hcond' := List.of_mem_filter hkv'
    have hv : kv'.2 = kv.2 := by
      have h1 : (kv.1, kv'.2) ∈ tr.requests := by
        have : kv' = (kv.1, kv'.2) := by
          rw [← he]
        rwa [← this]
      have h2 : (kv.1, kv.2) ∈ tr.requests := by
        simpa using hkv
      exact value_unique hnd h1 h2
    rw [hv] at hcond'
    rw [hcond'] at hcf
    exact absurd hcf (by simp)

theorem contains_iff_memKeys (l : List String) (a : String) :
    l.contains a = true ↔ a ∈ l := List.elem_iff

theorem phase12_keysNodup (tr : RequestTracker) (now : Int)
    (hnd : KeysNodup tr.requests) : KeysNodup (tr.phase12 now) := by
  rw [phase12_eq_filter tr now hnd]
  exact hnd.filter _

theorem cleanup_requests_le (tr : RequestTracker) (now : Int)
    (h : (tr.phase12 now).length ≤ tr.max_history) :
    (tr.cleanupOldRequests now).requests = tr.phase12 now := by
  have h2 : ¬ tr.max_history < (tr.phase12 now).length := by omega
  unfold RequestTracker.cleanupOldRequests
  simp [h2]

theorem cleanup_requests_gt (tr : RequestTracker) (now : Int)
    (h : tr.max_history < (tr.phase12 now).length) :
    (tr.cleanupOldRequests now).requests
      = (((stableSortByKey (fun kv => doneKey kv.2)
            ((tr.phase12 now).filter (fun kv => isDone kv.2))).take
              ((tr.phase12 now).length - tr.max_history)).map Prod.fst).foldl
          eraseD (tr.phase12 now) := by
  unfold RequestTracker.cleanupOldRequests
  simp [h]

/-- **C6.** One `_cleanup_old_requests` run removes exactly: the
completed/failed entries whose completion time is older than
`now − cleanup_interval`, the pending/in-flight entries submitted before
`now − stale_timeout`, and then — only if the store still exceeds
`max_history` — the oldest completed/failed entries (by `completed_at or 0`),
as many as the excess (bounded by how many completed/failed entries exist).
No other entry is removed: a pending/in-flight entry that is not stale always
survives, and within budget the store after cleanup is exactly the phase-1/2
result. -/
theorem C6_cleanup_exact (tr : RequestTracker) (now : Int)
    (hnd : KeysNodup tr.requests) :
    (∀ rid req, lookupD tr.requests rid = some req →
        lookupD (tr.phase12 now) rid
          = if expiredDone req (now - tr.cleanup_interval)
              || staleActive req (now - tr.stale_timeout)
            then none else some req) ∧
    ((tr.phase12 now).length ≤ tr.max_history →
        (tr.cleanupOldRequests now).requests = tr.phase12 now) ∧
    (∀ rid req, lookupD tr.requests rid = some req → isActive req = true →
        staleActive req (now - tr.stale_timeout) = false →
        lookupD (tr.cleanupOldRequests now).requests rid = some req) ∧
    (tr.max_history < (tr.phase12 now).length →
        (tr.cleanupOldRequests now).requests.length
            = (tr.phase12 now).length
              - min ((tr.phase12 now).length - tr.max_history)
                  ((tr.phase12 now).filter (fun kv => isDone kv.2)).length ∧
        (∀ rid req, lookupD (tr.phase12 now) rid = some req →
            lookupD (tr.cleanupOldRequests now).requests rid = none →
            isDone req = true ∧
            (∀ rid2 req2,
                lookupD (tr.cleanupOldRequests now).requests rid2 = some req2 →
                isDone req2 = true → doneKey req ≤ doneKey req2))) := by
  have hnd1 : KeysNodup (tr.phase12 now) := phase12_keysNodup tr now hnd
  have hndD : KeysNodup ((tr.phase12 now).filter (fun kv => isDone kv.2)) :=
    hnd1.filter _
  have hperm := stableSortByKey_perm (fun kv : String × TrackedRequest => doneKey kv.2)
    ((tr.phase12 now).filter (fun kv => isDone kv.2))
  have hc1 : (∀ rid req, lookupD tr.requests rid = some req →
      lookupD (tr.phase12 now) rid
        = if expiredDone req (now - tr.cleanup_interval)
            || staleActive req (now - tr.stale_timeout) then none else some req) := by
    intro rid req h
    rw [phase12_eq_filter tr now hnd, lookupD_filter hnd _ rid, h]
    by_cases hc : (expiredDone req (now - tr.cleanup_interval)
        || staleActive req (now - tr.stale_timeout)) = true
    · simp [hc]
    · simp only [Bool.not_eq_true] at hc
      simp [hc]
  have hcontains_false : ∀ (rid : String) (req : TrackedRequest),
      lookupD (tr.phase12 now) rid = some req → isDone req = false →
      ((((stableSortByKey (fun kv => doneKey kv.2)
          ((tr.phase12 now).filter (fun kv => isDone kv.2))).take
            ((tr.phase12 now).length - tr.max_history)).map Prod.fst).contains rid)
        = false := by
    intro rid req hlook1 hdone
    rw [Bool.eq_false_iff]
    intro hcont
    obtain ⟨e, hetake, hekey⟩ :=
      List.mem_map.mp ((contains_iff_memKeys _ _).mp hcont)
    have hesorted := List.mem_of_mem_take hetake
    have hedone : e ∈ (tr.phase12 now).filter (fun kv => isDone kv.2) :=
      hperm.mem_iff.mp hesorted
    have heis : isDone e.2 = true := by simpa using List.of_mem_filter hedone
    have hv : e.2 = req := by
      have h1 : (rid, e.2) ∈ tr.phase12 now := by
        have he2 : e = (rid, e.2) := by
          rw [← hekey]
        rw [← he2]
        exact List.mem_of_mem_filter hedone
      exact value_unique hnd1 h1 (lookupD_mem hlook1)
    rw [hv, hdone] at heis
    exact absurd heis (by simp)
  refine ⟨hc1, fun hle => cleanup_requests_le tr now hle, ?_, ?_⟩
  · intro rid req h hact hstale
    have hdone : isDone req = false := by
      simp only [isActive, Bool.or_eq_true, decide_eq_true_eq] at hact
      rcases hact with h1 | h1 <;> simp [isDone, h1]
    have hexp : expiredDone req (now - tr.cleanup_interval) = false := by
      simp [expiredDone, hdone]
    have hlook1 : lookupD (tr.phase12 now) rid = some req := by
      rw [hc1 rid req h, hexp, hstale]
      simp
    by_cases hb : (tr.phase12 now).length ≤ tr.max_history
    · rw [cleanup_requests_le tr now hb]
      exact hlook1
    · have hlt : tr.max_history < (tr.phase12 now).length := by omega
      rw [cleanup_requests_gt tr now hlt, foldl_eraseD_eq_filter _ _ hnd1,
          lookupD_filter hnd1 _ rid, hlook1]
      have hnotin := hcontains_false rid req hlook1 hdone
      dsimp only
      rw [hnotin]
      rfl
  · intro hlt
    have hkeysortnd : ((stableSortByKey (fun kv => doneKey kv.2)
        ((tr.phase12 now).filter (fun kv => isDone kv.2))).map Prod.fst).Nodup := by
      have hmap := hperm.map Prod.fst
      have hD : (((tr.phase12 now).filter (fun kv => isDone kv.2)).map Prod.fst).Nodup := hndD
      exact hmap.nodup_iff.mpr hD
    have hremnd : ((((stableSortByKey (fun kv => doneKey kv.2)
        ((tr.phase12 now).filter (fun kv => isDone kv.2))).take
          ((tr.phase12 now).length - tr.max_history)).map Prod.fst)).Nodup := by
      rw [List.map_take]
      exact hkeysortnd.sublist (List.take_sublist _ _)
    have hremsub : ∀ r ∈ (((stableSortByKey (fun kv => doneKey kv.2)
        ((tr.phase12 now).filter (fun kv => isDone kv.2))).take
          ((tr.phase12 now).length - tr.max_history)).map Prod.fst),
        r ∈ (tr.phase12 now).map Prod.fst := by
      intro r hr
      obtain ⟨e, hetake, hekey⟩ := List.mem_map.mp hr
      have hesorted := List.mem_of_mem_take hetake
      have hedone := hperm.mem_iff.mp hesorted
      have hein : e ∈ tr.phase12 now := List.mem_of_mem_filter hedone
      rw [← hekey]
      exact mem_of_mem_assoc hein
    constructor
    · rw [cleanup_requests_gt tr now hlt,
          foldl_eraseD_length _ _ hnd1 hremnd hremsub,
          List.length_map, List.length_take, hperm.length_eq]
    · intro rid req hlook1 hlookc
      have hrem : ((((stableSortByKey (fun kv => doneKey kv.2)
          ((tr.phase12 now).filter (fun kv => isDone kv.2))).take
            ((tr.phase12 now).length - tr.max_history)).map Prod.fst).contains rid)
          = true := by
        by_contra hnc
        have hf : ((((stableSortByKey (fun kv => doneKey kv.2)
            ((tr.phase12 now).filter (fun kv => isDone kv.2))).take
              ((tr.phase12 now).length - tr.max_history)).map Prod.fst).contains rid)
            = false := by simpa using hnc
        rw [cleanup_requests_gt tr now hlt, foldl_eraseD_eq_filter _ _ hnd1,
            lookupD_filter hnd1 _ rid, hlook1] at hlookc
        dsimp only at hlookc
        rw [hf] at hlookc
        simp at hlookc
      obtain ⟨e, hetake, hekey⟩ :=
        List.mem_map.mp ((contains_iff_memKeys _ _).mp hrem)
      have hesorted := List.mem_of_mem_take hetake
      have hedone : e ∈ (tr.phase12 now).filter (fun kv => isDone kv.2) :=
        hperm.mem_iff.mp hesorted
      have heis : isDone e.2 = true := by simpa using List.of_mem_filter hedone
      have hv : e.2 = req := by
        have h1 : (rid, e.2) ∈ tr.phase12 now := by
          have he2 : e = (rid, e.2) := by
            rw [← hekey]
          rw [← he2]
          exact List.mem_of_mem_filter hedone
        exact value_unique hnd1 h1 (lookupD_mem hlook1)
      refine ⟨by rw [← hv]; exact heis, ?_⟩
      intro rid2 req2 hlook2 hdone2
      have hmem2 : (rid2, req2) ∈ (tr.cleanupOldRequests now).requests :=
        lookupD_mem hlook2
      rw [cleanup_requests_gt tr now hlt, foldl_eraseD_eq_filter _ _ hnd1] at hmem2
      have hnotin2 : rid2 ∉ (((stableSortByKey (fun kv => doneKey kv.2)
          ((tr.phase12 now).filter (fun kv => isDone kv.2))).take
            ((tr.phase12 now).length - tr.max_history)).map Prod.fst) := by
        have hq := List.of_mem_filter hmem2
        intro hmem
        rw [(contains_iff_memKeys _ _).mpr hmem] at hq
        simp at hq
      have hin2 : (rid2, req2) ∈ tr.phase12 now := List.mem_of_mem_filter hmem2
      have hin2d : (rid2, req2) ∈ (tr.phase12 now).filter (fun kv => isDone kv.2) :=
        List.mem_filter.mpr ⟨hin2, by simpa using hdone2⟩
      have hin2s := hperm.mem_iff.mpr hin2d
      have hsplit := List.mem_append.mp (by
        rw [List.take_append_drop ((tr.phase12 now).length - tr.max_history)
          (stableSortByKey (fun kv => doneKey kv.2)
            ((tr.phase12 now).filter (fun kv => isDone kv.2)))]
        exact hin2s)
      rcases hsplit with htk | hdr
      · exact absurd (List.mem_map.mpr ⟨(rid2, req2), htk, rfl⟩) hnotin2
      · have hcross := sorted_take_le_drop (fun kv => doneKey kv.2)
          ((tr.phase12 now).filter (fun kv => isDone kv.2))
          ((tr.phase12 now).length - tr.max_history) hetake hdr
        dsimp only at hcross
        rw [hv] at hcross
        exact hcross

/-- A concrete tracker over budget: two fresh completed entries, one fresh
pending entry, `max_history = 1`. -/
def sampleTracker : RequestTracker :=
  { requests :=
      [("r1", { request_id := "r1", source := "c", model := "m", path := "/p",
                submitted_at := 0, completed_at := some 990, status := "completed" }),
       ("r2", { request_id := "r2", source := "c", model := "m", path := "/p",
                submitted_at := 0, completed_at := some 995, status := "completed" }),
       ("r3", { request_id := "r3", source := "c", model := "m", path := "/p",
                submitted_at := 999, status := "pending" })],
    max_history := 1 }

/-- Concrete instantiation of `C6_cleanup_exact`: at `now = 1000` nothing is
expired or stale, the store (3 entries) exceeds `max_history = 1`, and the
cleanup drops exactly `min 2 2 = 2` completed entries. -/
theorem C6_cleanup_exact_witness :
    KeysNodup sampleTracker.requests ∧
    sampleTracker.max_history < (sampleTracker.phase12 1000).length ∧
    (sampleTracker.cleanupOldRequests 1000).requests.length
      = (sampleTracker.phase12 1000).length
        - min ((sampleTracker.phase12 1000).length - sampleTracker.max_history)
            ((sampleTracker.phase12 1000).filter (fun kv => isDone kv.2)).length :=
  ⟨by decide, by decide,
   ((C6_cleanup_exact sampleTracker 1000 (by decide)).2.2.2 (by decide)).1⟩

/-! ### Character-level string utilities

The Python code works on `str`; the embedding works on `List Char` (with
`String.toList`/`String.mk` at the boundary) so that everything computes. -/

/-- ASCII `str.lower()` (the repository's model and pool names are ASCII). -/
def asciiLower (c : Char) : Char :=
  if 'A' ≤ c ∧ c ≤ 'Z' then Char.ofNat (c.toNat + 32) else c

def lowerChars (s : String) : List Char := s.toList.map asciiLower

/-- `str.startswith`: is the first list an initial segment of the second? -/
def startsChars : List Char → List Char → Bool
  | [], _ => true
  | _ :: _, [] => false
  | a :: as, b :: bs => a = b && startsChars as bs

/-- Python's substring test `needle in hay` (the empty needle matches). -/
def hasSubChars (needle : List Char) : List Char → Bool
  | [] => needle.isEmpty
  | c :: cs => startsChars needle (c :: cs) || hasSubChars needle cs

/-- `str.split(sep)` for a one-character separator (`text.split('\n')`). -/
def splitOnChar (sep : Char) : List Char → List (List Char)
  | [] => [[]]
  | c :: cs =>
    let r := splitOnChar sep cs
    if c = sep then [] :: r
    else
      match r with
      | [] => [[c]]
      | g :: gs => (c :: g) :: gs

/-- `str.split()` with no argument: whitespace runs, no empty groups. -/
def wordsChars : List Char → List (List Char)
  | [] => []
  | c :: cs =>
    let r := wordsChars cs
    if c.isWhitespace then r
    else
      match cs with
      | [] => [[c]]
      | c2 :: _ =>
        if c2.isWhitespace then [c] :: r
        else
          match r with
          | [] => [[c]]
          | w :: ws => (c :: w) :: ws

def digitsVal (cs : List Char) : Nat :=
  cs.foldl (fun acc c => acc * 10 + (c.toNat - 48)) 0

/-- `int(float(w))` for plain decimal literals `[±]digits[.digits]`
(truncation toward zero); `none` embeds the `ValueError` on anything else
(exponent and special float forms are outside the model). -/
def parseUnsignedTrunc (cs : List Char) : Option Int :=
  let intPart := cs.takeWhile Char.isDigit
  let rest := cs.drop intPart.length
  match rest with
  | [] => if intPart.isEmpty then none else some (digitsVal intPart)
  | '.' :: frac =>
    if frac.all Char.isDigit && !(intPart.isEmpty && frac.isEmpty) then
      some (digitsVal intPart)
    else none
  | _ => none

def parsePyFloatInt (w : List Char) : Option Int :=
  match w with
  | '+' :: cs => parseUnsignedTrunc cs
  | '-' :: cs => (parseUnsignedTrunc cs).map (fun n => -n)
  | cs => parseUnsignedTrunc cs

/-! ### vLLM metrics parsing and the load refresh (`server.py`) -/

/-- The dict built by `parse_vllm_metrics`: each key optional. -/
structure VllmMetrics where
  running : Option Int := none
  waiting : Option Int := none
  deriving Repr, DecidableEq

/-- `parse_vllm_metrics`: scan the lines; on each line with the right prefix,
take `int(float(line.split()[-1]))`; skip the line on any parse error (the
`except (ValueError, IndexError)` clause); a later matching line overwrites. -/
def parse_vllm_metrics (text : String) : VllmMetrics :=
  (splitOnChar '\n' text.toList).foldl
    (fun m line =>
      if startsChars "vllm:num_requests_running".toList line then
        match (wordsChars line).getLast? with
        | none => m
        | some w =>
          match parsePyFloatInt w with
          | none => m
          | some v => { m with running := some v }
      else if startsChars "vllm:num_requests_waiting".toList line then
        match (wordsChars line).getLast? with
        | none => m
        | some w =>
          match parsePyFloatInt w with
          | none => m
          | some v => { m with waiting := some v }
      else m)
    {}

def LOAD_CACHE_TTL : Int := 1

/-- `LoadBalancingProxy._refresh_backend_load`: skip when the cached load is
fresh; on a 200 response set `gpu_load = metrics.get('running', 0) +
metrics.get('waiting', 0)` and stamp `load_last_updated = now`; leave the
backend untouched on a non-200 status or a transport exception (`resp =
none`). -/
def refreshBackendLoad (b : Backend) (now : Int) (resp : Option (Nat × String)) :
    Backend :=
  if now - b.load_last_updated < LOAD_CACHE_TTL then b
  else
    match resp with
    | none => b
    | some (status, text) =>
      if status = 200 then
        let m := parse_vllm_metrics text
        { b with gpu_load := m.running.getD 0 + m.waiting.getD 0,
                 load_last_updated := now }
      else b

/-- Counterexample to the claim that a parse failure leaves `gpu_load` and the
load timestamp unchanged: a 200 response whose body is empty (both metric
lines missing) *resets* `gpu_load` to 0 and refreshes the timestamp. -/
theorem C9_parse_failure_counterexample :
    (let b : Backend := { host := "h", port := 1, gpu_load := 5, load_last_updated := 0 }
     let b2 := refreshBackendLoad b 10 (some (200, ""))
     b2.gpu_load = 0 ∧ b2.load_last_updated = 10 ∧
       ¬(b2.gpu_load = b.gpu_load ∧ b2.load_last_updated = b.load_last_updated)) := by
  decide

/-- **C9 (amended).** The load refresh leaves the backend untouched when the
cache is fresh, on a transport error and on a non-200 status; on any 200
response it sets `gpu_load` to `running + waiting` **with a missing or
unparseable value counted as 0** and always stamps the load timestamp — a
parse failure therefore does not leave the values unchanged but zeroes the
missing contributions. -/
theorem C9_load_refresh (b : Backend) (now : Int) (text : String) (status : Nat) :
    (now - b.load_last_updated < LOAD_CACHE_TTL →
        ∀ resp, refreshBackendLoad b now resp = b) ∧
    refreshBackendLoad b now none = b ∧
    (status ≠ 200 → refreshBackendLoad b now (some (status, text)) = b) ∧
    (LOAD_CACHE_TTL ≤ now - b.load_last_updated →
        refreshBackendLoad b now (some (200, text))
          = { b with gpu_load := (parse_vllm_metrics text).running.getD 0
                        + (parse_vllm_metrics text).waiting.getD 0,
                     load_last_updated := now }) := by
  refine ⟨?_, ?_, ?_, ?_⟩
  · intro h resp
    unfold refreshBackendLoad
    rw [if_pos h]
  · unfold refreshBackendLoad
    split
    · rfl
    · rfl
  · intro h
    unfold refreshBackendLoad
    split
    · rfl
    · dsimp only
      rw [if_neg h]
  · intro h
    unfold refreshBackendLoad
    rw [if_neg (by omega)]
    dsimp only
    rw [if_pos rfl]

/-- Concrete instantiation of `C9_load_refresh`: a well-formed metrics payload
(running 3.0, waiting 2.5) yields `gpu_load = 3 + 2 = 5` (truncation). -/
theorem C9_load_refresh_witness :
    (LOAD_CACHE_TTL ≤ 10 - (0 : Int)) ∧
    parse_vllm_metrics "vllm:num_requests_running 3.0\nvllm:num_requests_waiting 2.5"
      = { running := some 3, waiting := some 2 } ∧
    refreshBackendLoad { host := "h", port := 1, gpu_load := 7, load_last_updated := 0 } 10
        (some (200, "vllm:num_requests_running 3.0\nvllm:num_requests_waiting 2.5"))
      = { host := "h", port := 1, gpu_load := 5, load_last_updated := 10 } := by
  refine ⟨by decide, by decide, ?_⟩
  have h := (C9_load_refresh { host := "h", port := 1, gpu_load := 7, load_last_updated := 0 }
      10 "vllm:num_requests_running 3.0\nvllm:num_requests_waiting 2.5" 200).2.2.2 (by decide)
  rw [h]
  decide

/-! ### Proxy state: pools, model discovery and pool resolution (`server.py`) -/

/-- The parts of `LoadBalancingProxy` state the resolution claims use: the
pool dict and the model→pool map (both insertion-ordered Python dicts). -/
structure ProxyState where
  pools : List (String × BackendPool) := []
  model_to_pool : List (String × String) := []
  deriving Repr, DecidableEq

/-- One pool's contribution in `_fetch_backend_models`: the `/v1/models` ids
of the first healthy backend that answers 200 (`break` on success; unhealthy
backends are skipped, failures and non-200 answers `continue`).  The upstream
responses come in through `adverts`. -/
def poolAdvertised (adverts : String → Nat → Option (List String)) :
    List Backend → Option (List String)
  | [] => none
  | b :: bs =>
    if b.healthy then
      match adverts b.host b.port with
      | some ids => some ids
      | none => poolAdvertised adverts bs
    else poolAdvertised adverts bs

/-- `_fetch_backend_models` effect on the model→pool map: for each pool (in
dict order), every advertised id is written with `model_to_pool[id] =
pool_name` — the map is only ever inserted into or overwritten. -/
def fetchModelsMap (adverts : String → Nat → Option (List String)) :
    List (String × BackendPool) → List (String × String) → List (String × String)
  | [], m => m
  | (pname, pool) :: rest, m =>
    match poolAdvertised adverts pool.backends with
    | none => fetchModelsMap adverts rest m
    | some ids =>
      fetchModelsMap adverts rest (ids.foldl (fun m i => insertD m i pname) m)

/-- A forced `_fetch_backend_models(force=True)` run (the cached fast path of
the non-forced call returns early and leaves the map untouched). -/
def ProxyState.fetchBackendModels (st : ProxyState)
    (adverts : String → Nat → Option (List String)) : ProxyState :=
  { st with model_to_pool := fetchModelsMap adverts st.pools st.model_to_pool }

/-- Steps (b)/(c) of the resolution: `model_to_pool.get(model)`, then — when
the name is truthy — `pools.get(pool_name)`. -/
def lookupPoolViaMap (st : ProxyState) (model : String) : Option String :=
  match lookupD st.model_to_pool model with
  | none => none
  | some pname =>
    if pname ≠ "" ∧ (lookupD st.pools pname).isSome then some pname else none

/-- Step (d): the first pool whose lowercased name contains the lowercased
model as a substring or vice versa (skipped entirely for a falsy model). -/
def substrMatch (pools : List (String × BackendPool)) (model : String) :
    Option String :=
  let ml := lowerChars model
  if ml.isEmpty then none
  else
    (pools.find? (fun kv =>
        hasSubChars ml (lowerChars kv.1) || hasSubChars (lowerChars kv.1) ml)).map
      Prod.fst

/-- Pool resolution of `_proxy_request` (`server.py` lines 320–341): direct
name lookup, the model→pool map, a forced model-discovery refresh plus the map
again, then the case-insensitive substring match; `none` is the HTTP 404
case.  Returns the chosen pool name and the (possibly refreshed) state. -/
def ProxyState.resolvePool (st : ProxyState)
    (adverts : String → Nat → Option (List String)) (model : String) :
    Option String × ProxyState :=
  if (lookupD st.pools model).isSome then (some model, st)
  else
    match lookupPoolViaMap st model with
    | some pname => (some pname, st)
    | none =>
      let st2 := st.fetchBackendModels adverts
      match lookupPoolViaMap st2 model with
      | some pname => (some pname, st2)
      | none => (substrMatch st2.pools model, st2)

/-- The `available` field of the 404 body:
`list(self.model_to_pool.keys()) or list(self.pools.keys())`. -/
def availableModels (st : ProxyState) : List String :=
  if st.model_to_pool.isEmpty then st.pools.map Prod.fst
  else st.model_to_pool.map Prod.fst

/-- The S4 pool: one healthy backend `A`. -/
def poolA : BackendPool :=
  { model := "my_model", backends := [{ host := "127.0.0.1", port := 5900 }] }

/-- The S4 proxy state: pool `my_model` = [A], empty model map. -/
def stS4 : ProxyState := { pools := [("my_model", poolA)] }

/-- S4 upstream behaviour: `A`'s `/v1/models` advertises `my_model@v2`. -/
def advertsS4 : String → Nat → Option (List String) := fun h p =>
  if h = "127.0.0.1" ∧ p = 5900 then some ["my_model@v2"] else none

/-- Counterexample to the last conjunct of the claim: in scenario S4's state
the resolution of `"unknown"` fails through all four steps and the 404 body's
`available` list is exactly `["my_model@v2"]` — it does **not** include the
pool name `my_model`. -/
theorem C4_available_counterexample :
    (stS4.resolvePool advertsS4 "unknown").1 = none ∧
    availableModels (stS4.resolvePool advertsS4 "unknown").2 = ["my_model@v2"] ∧
    "my_model" ∉ availableModels (stS4.resolvePool advertsS4 "unknown").2 := by
  decide

/-- **C4 (amended).** The serving pool is resolved by trying, in order:
(a) direct lookup among pool names, (b) the model→pool map, (c) a forced
model-discovery refresh followed by (b) again, (d) a case-insensitive
substring match over pool names in either direction.  If all four fail the
request is answered with HTTP 404 whose `available` list is the model-map
keys **after the forced refresh** (the pool names only when that map is
empty) — so in scenario S4's state it contains the advertised id
`my_model@v2` but not the pool name `my_model`. -/
theorem C4_resolution_chain (st : ProxyState)
    (adverts : String → Nat → Option (List String)) (model : String) :
    ((lookupD st.pools model).isSome → st.resolvePool adverts model = (some model, st)) ∧
    (lookupD st.pools model = none → ∀ p, lookupPoolViaMap st model = some p →
        st.resolvePool adverts model = (some p, st)) ∧
    (st.fetchBackendModels adverts).pools = st.pools ∧
    (lookupD st.pools model = none → lookupPoolViaMap st model = none →
        ∀ p, lookupPoolViaMap (st.fetchBackendModels adverts) model = some p →
          st.resolvePool adverts model = (some p, st.fetchBackendModels adverts)) ∧
    (lookupD st.pools model = none → lookupPoolViaMap st model = none →
        lookupPoolViaMap (st.fetchBackendModels adverts) model = none →
          st.resolvePool adverts model
            = (substrMatch st.pools model, st.fetchBackendModels adverts)) ∧
    ((st.resolvePool adverts model).1 = none →
        availableModels (st.resolvePool adverts model).2
          = (if (st.fetchBackendModels adverts).model_to_pool.isEmpty
             then st.pools.map Prod.fst
             else (st.fetchBackendModels adverts).model_to_pool.map Prod.fst)) := by
  have hfp : (st.fetchBackendModels adverts).pools = st.pools := rfl
  refine ⟨?_, ?_, hfp, ?_, ?_, ?_⟩
  · intro h
    unfold ProxyState.resolvePool
    rw [if_pos h]
  · intro h p hp
    unfold ProxyState.resolvePool
    rw [if_neg (by simp [h]), hp]
  · intro h hm p hp
    unfold ProxyState.resolvePool
    rw [if_neg (by simp [h]), hm]
    dsimp only
    rw [hp]
  · intro h hm hm2
    unfold ProxyState.resolvePool
    rw [if_neg (by simp [h]), hm]
    dsimp only
    rw [hm2]
    rfl
  · intro hres
    by_cases h : (lookupD st.pools model).isSome
    · exfalso
      unfold ProxyState.resolvePool at hres
      rw [if_pos h] at hres
      simp at hres
    · have hn : lookupD st.pools model = none := by
        cases hl : lookupD st.pools model with
        | none => rfl
        | some v => rw [hl] at h; simp at h
      cases hm : lookupPoolViaMap st model with
      | some p =>
        exfalso
        unfold ProxyState.resolvePool at hres
        rw [if_neg (by simp [hn]), hm] at hres
        simp at hres
      | none =>
        cases hm2 : lookupPoolViaMap (st.fetchBackendModels adverts) model with
        | some p =>
          exfalso
          unfold ProxyState.resolvePool at hres
          rw [if_neg (by simp [hn]), hm] at hres
          dsimp only at hres
          rw [hm2] at hres
          simp at hres
        | none =>
          have hr : st.resolvePool adverts model
              = (substrMatch st.pools model, st.fetchBackendModels adverts) := by
            unfold ProxyState.resolvePool
            rw [if_neg (by simp [hn]), hm]
            dsimp only
            rw [hm2]
            rfl
          rw [hr]
          rfl

/-- Concrete instantiation of `C4_resolution_chain` on the S4 state: the pool
name resolves directly; `my_model@v2` resolves through the forced refresh;
`MY_MODEL` resolves through the substring fallback. -/
theorem C4_resolution_chain_witness :
    (lookupD stS4.pools "my_model").isSome ∧
    stS4.resolvePool advertsS4 "my_model" = (some "my_model", stS4) ∧
    stS4.resolvePool advertsS4 "my_model@v2"
      = (some "my_model", stS4.fetchBackendModels advertsS4) ∧
    (stS4.resolvePool advertsS4 "MY_MODEL").1 = some "my_model" := by
  refine ⟨by decide, (C4_resolution_chain stS4 advertsS4 "my_model").1 (by decide), ?_, ?_⟩
  · exact (C4_resolution_chain stS4 advertsS4 "my_model@v2").2.2.2.1
      (by decide) (by decide) "my_model" (by decide)
  · have hE := (C4_resolution_chain stS4 advertsS4 "MY_MODEL").2.2.2.2.1
      (by decide) (by decide) (by decide)
    rw [hE]
    decide

/-! ### Proxy backend registration (`server.py` `add_backend`/`remove_backend`) -/

/-- `LoadBalancingProxy.add_backend`: create the pool on first use, then
`BackendPool.add_backend`. -/
def ProxyState.addBackend (st : ProxyState) (model host : String) (port : Nat)
    (partition : String := "") : ProxyState :=
  match lookupD st.pools model with
  | none =>
    let p := BackendPool.add_backend { model := model } host port partition
    { st with pools := insertD st.pools model p }
  | some pool =>
    let p := pool.add_backend host port partition
    { st with pools := insertD st.pools model p }

/-- `LoadBalancingProxy.remove_backend`: remove `(host, port)` from every
pool; the flag says whether any pool removed something. -/
def ProxyState.removeBackend (st : ProxyState) (host : String) (port : Nat) :
    ProxyState × Bool :=
  let results := st.pools.map (fun kv =>
    let r := kv.2.remove_backend host port
    ((kv.1, r.1), r.2))
  ({ st with pools := results.map Prod.fst }, results.any Prod.snd)

/-! ### C10: the model→pool map never shrinks -/

theorem lookupD_foldl_insertD_not_mem {α : Type} (v : α) (id : String) :
    ∀ (ids : List String) (m : List (String × α)), id ∉ ids →
      lookupD (ids.foldl (fun m i => insertD m i v) m) id = lookupD m id := by
  intro ids
  induction ids with
  | nil => intro m _; rfl
  | cons i is ih =>
    intro m h
    simp only [List.foldl_cons]
    rw [ih _ (fun hm => h (by simp [hm]))]
    exact lookupD_insertD_ne _ _ _ _ (fun he => h (by simp [he]))

theorem lookupD_foldl_insertD_mem {α : Type} (v : α) (id : String) :
    ∀ (ids : List String) (m : List (String × α)), id ∈ ids →
      lookupD (ids.foldl (fun m i => insertD m i v) m) id = some v := by
  intro ids
  induction ids with
  | nil => intro m h; simp at h
  | cons i is ih =>
    intro m h
    simp only [List.foldl_cons]
    by_cases hmem : id ∈ is
    · exact ih _ hmem
    · have hi : i = id := by
        rcases List.mem_cons.mp h with he | hm
        · exact he.symm
        · exact absurd hm hmem
      rw [lookupD_foldl_insertD_not_mem v id is _ hmem, hi,
        lookupD_insertD_self]

theorem getLast?_cons_of_ne_nil {α : Type} (a : α) {l : List α} (h : l ≠ []) :
    (a :: l).getLast? = l.getLast? := by
  cases l with
  | nil => exact absurd rfl h
  | cons b bs => rfl

/-- The pool that the claim says an id should resolve to: the **last** pool in
dict order whose answering backend advertises the id. -/
def lastAdvertiser (adverts : String → Nat → Option (List String))
    (pools : List (String × BackendPool)) (id : String) : Option String :=
  ((pools.filter (fun kv =>
      match poolAdvertised adverts kv.2.backends with
      | some ids => ids.contains id
      | none => false)).getLast?).map Prod.fst

theorem fetchModelsMap_lookup (adverts : String → Nat → Option (List String))
    (id : String) :
    ∀ (pools : List (String × BackendPool)) (m : List (String × String)),
      lookupD (fetchModelsMap adverts pools m) id
        = match lastAdvertiser adverts pools id with
          | some p => some p
          | none => lookupD m id := by
  intro pools
  induction pools with
  | nil => intro m; rfl
  | cons kv rest ih =>
    intro m
    obtain ⟨pname, pool⟩ := kv
    unfold fetchModelsMap lastAdvertiser
    cases hadv : poolAdvertised adverts pool.backends with
    | none =>
      rw [ih m]
      unfold lastAdvertiser
      rw [List.filter_cons, if_neg (by simp [hadv])]
    | some ids =>
      rw [ih _]
      unfold lastAdvertiser
      rw [List.filter_cons]
      simp only [hadv]
      by_cases hcont : ids.contains id = true
      · rw [if_pos hcont]
        cases hfil : ((rest.filter (fun kv =>
            match poolAdvertised adverts kv.2.backends with
            | some ids => ids.contains id
            | none => false)).getLast?) with
        | some e =>
          have hne : (rest.filter (fun kv =>
              match poolAdvertised adverts kv.2.backends with
              | some ids => ids.contains id
              | none => false)) ≠ [] := by
            intro hnil
            rw [hnil] at hfil
            simp at hfil
          rw [getLast?_cons_of_ne_nil _ hne, hfil]
          simp
        | none =>
          have hnil : (rest.filter (fun kv =>
              match poolAdvertised adverts kv.2.backends with
              | some ids => ids.contains id
              | none => false)) = [] := by
            cases hl : (rest.filter (fun kv =>
                match poolAdvertised adverts kv.2.backends with
                | some ids => ids.contains id
                | none => false)) with
            | nil => rfl
            | cons x xs =>
              rw [hl] at hfil
              simp at hfil
          rw [hnil]
          simp only [List.getLast?_singleton, Option.map_some, Option.map_none]
          exact lookupD_foldl_insertD_mem pname id ids m
            ((contains_iff_memKeys ids id).mp hcont)
      · rw [if_neg hcont]
        cases hfil : ((rest.filter (fun kv =>
            match poolAdvertised adverts kv.2.backends with
            | some ids => ids.contains id
            | none => false)).getLast?) with
        | some e =>
          rfl
        | none =>
          exact lookupD_foldl_insertD_not_mem pname id ids m
            (fun hm => hcont ((contains_iff_memKeys ids id).mpr hm))

/-- **C10.** The model→pool map never shrinks: model discovery only inserts
or overwrites entries, with the last pool (in dict order) to advertise an id
winning; `add_backend` and `remove_backend` never touch the map, and
`remove_backend` never deletes a pool entry either — so an id once learned
keeps resolving to the last pool that advertised it and keeps appearing in
the 404 `available` list even after that pool's backends are gone. -/
theorem C10_model_map_never_shrinks (st : ProxyState)
    (adverts : String → Nat → Option (List String))
    (id mdl host : String) (port : Nat) (partition : String) :
    (lookupD (st.fetchBackendModels adverts).model_to_pool id
        = (match lastAdvertiser adverts st.pools id with
           | some p => some p
           | none => lookupD st.model_to_pool id)) ∧
    ((lookupD st.model_to_pool id).isSome →
        (lookupD (st.fetchBackendModels adverts).model_to_pool id).isSome) ∧
    (st.addBackend mdl host port partition).model_to_pool = st.model_to_pool ∧
    ((st.removeBackend host port).1).model_to_pool = st.model_to_pool ∧
    ((st.removeBackend host port).1).pools.map Prod.fst = st.pools.map Prod.fst ∧
    ((lookupD st.model_to_pool id).isSome → id ∈ availableModels st) := by
  refine ⟨fetchModelsMap_lookup adverts id st.pools st.model_to_pool, ?_, ?_, ?_, ?_, ?_⟩
  · intro h
    have hfetch : lookupD (st.fetchBackendModels adverts).model_to_pool id
        = match lastAdvertiser adverts st.pools id with
          | some p => some p
          | none => lookupD st.model_to_pool id :=
      fetchModelsMap_lookup adverts id st.pools st.model_to_pool
    rw [hfetch]
    cases hl : lastAdvertiser adverts st.pools id with
    | some p => simp
    | none => simpa using h
  · unfold ProxyState.addBackend
    cases lookupD st.pools mdl <;> rfl
  · rfl
  · unfold ProxyState.removeBackend
    simp [List.map_map]
  · intro h
    obtain ⟨v, hv⟩ := Option.isSome_iff_exists.mp h
    have hmem : (id, v) ∈ st.model_to_pool := lookupD_mem hv
    have hne : st.model_to_pool ≠ [] := by
      intro hnil
      rw [hnil] at hmem
      simp at hmem
    unfold availableModels
    rw [if_neg (by simpa [List.isEmpty_iff] using hne)]
    exact mem_of_mem_assoc hmem

/-- Concrete instantiation of `C10_model_map_never_shrinks` on the S4 state
extended with a previously learned id. -/
theorem C10_model_map_never_shrinks_witness :
    (let st : ProxyState :=
      { pools := [("my_model", poolA)], model_to_pool := [("old_id", "my_model")] }
     (lookupD st.model_to_pool "old_id").isSome ∧
     (lookupD (st.fetchBackendModels advertsS4).model_to_pool "old_id").isSome ∧
     "old_id" ∈ availableModels st ∧
     lookupD (st.fetchBackendModels advertsS4).model_to_pool "my_model@v2"
       = some "my_model") := by
  refine ⟨by decide, ?_, ?_, ?_⟩
  · exact (C10_model_map_never_shrinks
      { pools := [("my_model", poolA)], model_to_pool := [("old_id", "my_model")] }
      advertsS4 "old_id" "m" "h" 0 "").2.1 (by decide)
  · exact (C10_model_map_never_shrinks
      { pools := [("my_model", poolA)], model_to_pool := [("old_id", "my_model")] }
      advertsS4 "old_id" "m" "h" 0 "").2.2.2.2.2 (by decide)
  · decide

/-! ### Reconciliation loop (`agent_infra/orchestrator/manager.py`) -/

/-- An endpoint `(model, node, port, partition)` as built by
`ConnectionManager._build_endpoint`. -/
structure Endpoint where
  model : String
  host : String
  port : Nat
  partition : String
  deriving Repr, DecidableEq

/-- One row of the `get_slurm_jobs()` result (`command`/`partition` may be
missing when `scontrol` extraction fails). -/
structure SlurmJob where
  node : String
  command : Option String := none
  partition : Option String := none
  deriving Repr, DecidableEq

/-- `pathlib.Path(s).stem` (as char list): the final path component without
its last suffix; a dot at position 0 or at the very end is not a suffix. -/
def pathStem (s : String) : List Char :=
  let name := ((splitOnChar '/' s.toList).getLast?).getD []
  let dots := (List.range name.length).filter (fun i => name.getD i ' ' = '.')
  match dots.getLast? with
  | none => name
  | some i => if 0 < i ∧ i < name.length - 1 then name.take i else name

/-- `job_name.rsplit("_", 1)` with the digit check: when the stem ends in
`_<digits>` split off the replica index, else replica 0. -/
def splitReplica (jn : List Char) : List Char × Nat :=
  let us := (List.range jn.length).filter (fun i => jn.getD i ' ' = '_')
  match us.getLast? with
  | none => (jn, 0)
  | some i =>
    let after := jn.drop (i + 1)
    if after ≠ [] ∧ after.all Char.isDigit then (jn.take i, digitsVal after)
    else (jn, 0)

/-- `ConnectionManager._build_endpoint`: empty command → skip; stem, strip a
leading `start_vllm_`, split the replica index, look the model up in the
configured base ports, compute `base + idx * 10`, and keep the endpoint only
when `node:port/health` is reachable (the `avail` oracle). -/
def buildEndpoint (configs : List (String × Nat)) (avail : String → Nat → Bool)
    (node : String) (command : String) (partition : String) : Option Endpoint :=
  if command = "" then none
  else
    let jn0 := pathStem command
    let jn := if startsChars "start_vllm_".toList jn0 then jn0.drop 11 else jn0
    let mr := splitReplica jn
    let model := String.mk mr.1
    match lookupD configs model with
    | none => none
    | some base =>
      let port := base + mr.2 * 10
      if avail node port then some ⟨model, node, port, partition⟩ else none

def buildEndpointJob (configs : List (String × Nat)) (avail : String → Nat → Bool)
    (job : SlurmJob) : Option Endpoint :=
  buildEndpoint configs avail job.node (job.command.getD "") (job.partition.getD "")

/-- `_build_endpoints` over the job map, as a set (Python puts the endpoints
into `set()`). -/
def currentEndpoints (configs : List (String × Nat)) (avail : String → Nat → Bool)
    (js : List SlurmJob) : List Endpoint :=
  ((js.map (buildEndpointJob configs avail)).reduceOption).dedup

/-- `SSHTunnelManager.add_tunnel`: no-op when `(host, port)` already has a
tunnel. -/
def addTunnelSet (ts : List (String × Nat)) (host : String) (port : Nat) :
    List (String × Nat) :=
  if (host, port) ∈ ts then ts else ts ++ [(host, port)]

/-- `SSHTunnelManager.remove_tunnel`: drop the `(host, port)` key. -/
def removeTunnelSet (ts : List (String × Nat)) (host : String) (port : Nat) :
    List (String × Nat) :=
  ts.filter (fun k => k ≠ (host, port))

/-- The orchestrator state the poll loop mutates: the proxy, the tunnel set
and the known-endpoint set. -/
structure OrchState where
  proxy : ProxyState := {}
  tunnels : List (String × Nat) := []
  known : List Endpoint := []
  deriving Repr, DecidableEq

/-- The externally visible calls one tick makes, in order. -/
inductive OrchAction where
  | addTunnel (model host : String) (port : Nat)
  | addBackend (model host : String) (port : Nat) (partition : String)
  | removeBackend (host : String) (port : Nat)
  | removeTunnel (host : String) (port : Nat)
  deriving Repr, DecidableEq

/-- Added endpoint: `tunnels.add_tunnel(model, host, port)` then
`proxy.add_backend(model, "localhost", port, partition)`. -/
def addStep (s : OrchState) (e : Endpoint) : OrchState :=
  { s with tunnels := addTunnelSet s.tunnels e.host e.port,
           proxy := s.proxy.addBackend e.model "localhost" e.port e.partition }

/-- Removed endpoint: `proxy.remove_backend("localhost", port)` then
`tunnels.remove_tunnel(host, port)`. -/
def remStep (s : OrchState) (e : Endpoint) : OrchState :=
  { s with proxy := (s.proxy.removeBackend "localhost" e.port).1,
           tunnels := removeTunnelSet s.tunnels e.host e.port }

/-- One iteration of `ConnectionManager._poll_loop`: `jobs = get_slurm_jobs()`
(`none` when SLURM is unavailable or there are no jobs); `if not jobs:
continue` skips the tick for a missing or empty job map; otherwise build the
fresh endpoint set, process additions, then removals, then replace the known
set.  The action list records the collaborator calls in order. -/
def pollTick (st : OrchState) (configs : List (String × Nat))
    (avail : String → Nat → Bool) (jobs : Option (List SlurmJob)) :
    OrchState × List OrchAction :=
  match jobs with
  | none => (st, [])
  | some js =>
    if js.isEmpty then (st, [])
    else
      let current := currentEndpoints configs avail js
      let added := current.filter (fun e => decide (e ∉ st.known))
      let removed := st.known.filter (fun e => decide (e ∉ current))
      let st1 := added.foldl addStep st
      let st2 := removed.foldl remStep st1
      let acts :=
        (added.map (fun e =>
            [OrchAction.addTunnel e.model e.host e.port,
             OrchAction.addBackend e.model "localhost" e.port e.partition])).flatten
        ++ (removed.map (fun e =>
            [OrchAction.removeBackend "localhost" e.port,
             OrchAction.removeTunnel e.host e.port])).flatten
      ({ st2 with known := current }, acts)

/-! ### C8 support: what backend removal leaves behind -/

/-- Per-pool invariant: no two backends share `(host, port)` (§3). -/
def PairsNodup (l : List Backend) : Prop :=
  (l.map (fun b => (b.host, b.port))).Nodup

instance (l : List Backend) : Decidable (PairsNodup l) := by
  unfold PairsNodup
  infer_instance

/-- All pools of a proxy satisfy the per-pool invariant. -/
def PoolsPairsNodup (pools : List (String × BackendPool)) : Prop :=
  ∀ kv ∈ pools, PairsNodup kv.2.backends

instance (pools : List (String × BackendPool)) : Decidable (PoolsPairsNodup pools) := by
  unfold PoolsPairsNodup
  infer_instance

theorem mem_removeFirstBackend {host : String} {port : Nat} :
    ∀ {l : List Backend} {b : Backend},
      b ∈ (removeFirstBackend host port l).1 → b ∈ l := by
  intro l
  induction l with
  | nil => intro b h; simp [removeFirstBackend] at h
  | cons a as ih =>
    intro b h
    unfold removeFirstBackend at h
    by_cases ha : a.host = host ∧ a.port = port
    · rw [if_pos ha] at h
      exact List.mem_cons_of_mem a h
    · rw [if_neg ha] at h
      rcases List.mem_cons.mp h with he | hm
      · rw [he]; simp
      · exact List.mem_cons_of_mem a (ih hm)

theorem removeFirstBackend_sublist (host : String) (port : Nat) :
    ∀ (l : List Backend), (removeFirstBackend host port l).1.Sublist l := by
  intro l
  induction l with
  | nil => simp [removeFirstBackend]
  | cons a as ih =>
    unfold removeFirstBackend
    by_cases ha : a.host = host ∧ a.port = port
    · rw [if_pos ha]
      exact (List.sublist_cons_self a as)
    · rw [if_neg ha]
      exact ih.cons₂ a

theorem removeFirstBackend_none {host : String} {port : Nat} :
    ∀ {l : List Backend}, PairsNodup l →
      ∀ b ∈ (removeFirstBackend host port l).1, ¬(b.host = host ∧ b.port = port) := by
  intro l
  induction l with
  | nil => intro _ b h; simp [removeFirstBackend] at h
  | cons a as ih =>
    intro hnd b hb
    unfold PairsNodup at hnd
    simp only [List.map_cons, List.nodup_cons] at hnd
    unfold removeFirstBackend at hb
    by_cases ha : a.host = host ∧ a.port = port
    · rw [if_pos ha] at hb
      intro hbpair
      apply hnd.1
      rw [List.mem_map]
      refine ⟨b, hb, ?_⟩
      rw [hbpair.1, hbpair.2, ha.1, ha.2]
    · rw [if_neg ha] at hb
      rcases List.mem_cons.mp hb with he | hm
      · rw [he]; exact ha
      · exact ih hnd.2 b hm

/-- Membership of the entries of `ProxyState.removeBackend`'s pool dict. -/
theorem mem_removeBackend_pools {st : ProxyState} {host : String} {port : Nat}
    {kv : String × BackendPool} (h : kv ∈ ((st.removeBackend host port).1).pools) :
    ∃ kv0 ∈ st.pools,
      kv.1 = kv0.1 ∧ kv.2.backends = (removeFirstBackend host port kv0.2.backends).1 := by
  unfold ProxyState.removeBackend at h
  simp only [List.map_map, List.mem_map] at h
  obtain ⟨kv0, hkv0, he⟩ := h
  refine ⟨kv0, hkv0, ?_, ?_⟩
  · rw [← he]
    rfl
  · rw [← he]
    rfl

/-- After `remove_backend(host, port)` no pool holds a backend at
`(host, port)` — provided the per-pool invariant holds. -/
theorem removeBackend_clears (st : ProxyState) (host : String) (port : Nat)
    (hnd : PoolsPairsNodup st.pools) :
    ∀ kv ∈ ((st.removeBackend host port).1).pools,
      ∀ b ∈ kv.2.backends, ¬(b.host = host ∧ b.port = port) := by
  intro kv hkv b hb
  obtain ⟨kv0, hkv0, -, hbe⟩ := mem_removeBackend_pools hkv
  rw [hbe] at hb
  exact removeFirstBackend_none (hnd kv0 hkv0) b hb

/-- `remove_backend` only ever shrinks pools, so an absent `(host, port)`
stays absent. -/
theorem removeBackend_preserves_clear (st : ProxyState)
    (host h2 : String) (port p2 : Nat)
    (hclear : ∀ kv ∈ st.pools, ∀ b ∈ kv.2.backends, ¬(b.host = host ∧ b.port = port)) :
    ∀ kv ∈ ((st.removeBackend h2 p2).1).pools,
      ∀ b ∈ kv.2.backends, ¬(b.host = host ∧ b.port = port) := by
  intro kv hkv b hb
  obtain ⟨kv0, hkv0, -, hbe⟩ := mem_removeBackend_pools hkv
  rw [hbe] at hb
  exact hclear kv0 hkv0 b (mem_removeFirstBackend hb)

theorem removeBackend_pairsNodup (st : ProxyState) (host : String) (port : Nat)
    (hnd : PoolsPairsNodup st.pools) :
    PoolsPairsNodup ((st.removeBackend host port).1).pools := by
  intro kv hkv
  obtain ⟨kv0, hkv0, -, hbe⟩ := mem_removeBackend_pools hkv
  unfold PairsNodup
  rw [hbe]
  exact (hnd kv0 hkv0).sublist ((removeFirstBackend_sublist host port _).map _)

theorem removeTunnelSet_not_mem (ts : List (String × Nat)) (host : String)
    (port : Nat) : (host, port) ∉ removeTunnelSet ts host port := by
  intro h
  have := List.of_mem_filter h
  simp at this

theorem removeTunnelSet_preserves_not_mem {ts : List (String × Nat)}
    {host : String} {port : Nat} (h : (host, port) ∉ ts) (h2 : String) (p2 : Nat) :
    (host, port) ∉ removeTunnelSet ts h2 p2 := by
  intro hmem
  exact h (List.mem_of_mem_filter hmem)

/-- The three removal-fold invariants: a cleared `(localhost, port)` pool set
and a closed tunnel stay that way, and the per-pool invariant survives. -/
theorem remStep_fold_preserves (port : Nat) (host : String) :
    ∀ (l : List Endpoint) (s : OrchState),
      ((∀ kv ∈ s.proxy.pools, ∀ b ∈ kv.2.backends,
          ¬(b.host = "localhost" ∧ b.port = port)) →
        ∀ kv ∈ (l.foldl remStep s).proxy.pools, ∀ b ∈ kv.2.backends,
          ¬(b.host = "localhost" ∧ b.port = port)) ∧
      ((host, port) ∉ s.tunnels → (host, port) ∉ (l.foldl remStep s).tunnels) ∧
      (PoolsPairsNodup s.proxy.pools →
        PoolsPairsNodup (l.foldl remStep s).proxy.pools) := by
  intro l
  induction l with
  | nil => intro s; exact ⟨fun h => h, fun h => h, fun h => h⟩
  | cons e es ih =>
    intro s
    simp only [List.foldl_cons]
    obtain ⟨ih1, ih2, ih3⟩ := ih (remStep s e)
    refine ⟨?_, ?_, ?_⟩
    · intro hclear
      exact ih1 (removeBackend_preserves_clear s.proxy
        "localhost" "localhost" port e.port hclear)
    · intro htun
      exact ih2 (removeTunnelSet_preserves_not_mem htun e.host e.port)
    · intro hnd
      exact ih3 (removeBackend_pairsNodup s.proxy "localhost" e.port hnd)

/-- After the removal fold, every endpoint of the removed list has its
backend gone from every pool and its tunnel closed. -/
theorem remStep_fold_removes :
    ∀ (l : List Endpoint) (s : OrchState), PoolsPairsNodup s.proxy.pools →
      ∀ e ∈ l,
        (∀ kv ∈ (l.foldl remStep s).proxy.pools, ∀ b ∈ kv.2.backends,
            ¬(b.host = "localhost" ∧ b.port = e.port)) ∧
        (e.host, e.port) ∉ (l.foldl remStep s).tunnels := by
  intro l
  induction l with
  | nil => intro s _ e he; simp at he
  | cons e0 es ih =>
    intro s hnd e he
    simp only [List.foldl_cons]
    have hnd' : PoolsPairsNodup (remStep s e0).proxy.pools :=
      removeBackend_pairsNodup s.proxy "localhost" e0.port hnd
    rcases List.mem_cons.mp he with he0 | hmem
    · subst he0
      constructor
      · exact (remStep_fold_preserves e.port e.host es (remStep s e)).1
          (removeBackend_clears s.proxy "localhost" e.port hnd)
      · exact (remStep_fold_preserves e.port e.host es (remStep s e)).2.1
          (removeTunnelSet_not_mem s.tunnels e.host e.port)
    · exact ih (remStep s e0) hnd' e hmem

theorem mem_insertD {α : Type} {m : List (String × α)} {k : String} {v : α}
    {kv : String × α} (h : kv ∈ insertD m k v) : kv ∈ m ∨ kv = (k, v) := by
  induction m with
  | nil => simpa [insertD] using h
  | cons a rest ih =>
    obtain ⟨k2, v2⟩ := a
    unfold insertD at h
    by_cases he : k2 = k
    · rw [if_pos he] at h
      rcases List.mem_cons.mp h with h1 | h1
      · right; rw [h1, he]
      · left; exact List.mem_cons_of_mem _ h1
    · rw [if_neg he] at h
      rcases List.mem_cons.mp h with h1 | h1
      · left; rw [h1]; simp
      · rcases ih h1 with h2 | h2
        · left; exact List.mem_cons_of_mem _ h2
        · right; exact h2

theorem pairs_addOrRevive_sub {host : String} {port : Nat} {partition : String} :
    ∀ {l : List Backend} {x : String × Nat},
      x ∈ ((addOrReviveBackend host port partition l).map (fun b => (b.host, b.port))) →
      x ∈ (l.map (fun b => (b.host, b.port))) ∨ x = (host, port) := by
  intro l
  induction l with
  | nil =>
    intro x h
    simp [addOrReviveBackend] at h
    right
    exact h
  | cons b bs ih =>
    intro x h
    unfold addOrReviveBackend at h
    by_cases hb : b.host = host ∧ b.port = port
    · rw [if_pos hb] at h
      simp only [List.map_cons, List.mem_cons] at h ⊢
      rcases h with h1 | h1
      · left; left; exact h1
      · left; right; exact h1
    · rw [if_neg hb] at h
      simp only [List.map_cons, List.mem_cons] at h ⊢
      rcases h with h1 | h1
      · left; left; exact h1
      · rcases ih h1 with h2 | h2
        · left; right; exact h2
        · right; exact h2

theorem addOrRevive_pairsNodup {host : String} {port : Nat} {partition : String} :
    ∀ {l : List Backend}, PairsNodup l →
      PairsNodup (addOrReviveBackend host port partition l) := by
  intro l
  induction l with
  | nil => intro _; simp [addOrReviveBackend, PairsNodup]
  | cons b bs ih =>
    intro hnd
    unfold PairsNodup at hnd ⊢
    simp only [List.map_cons, List.nodup_cons] at hnd
    unfold addOrReviveBackend
    by_cases hb : b.host = host ∧ b.port = port
    · rw [if_pos hb]
      simp only [List.map_cons, List.nodup_cons]
      exact ⟨hnd.1, hnd.2⟩
    · rw [if_neg hb]
      simp only [List.map_cons, List.nodup_cons]
      refine ⟨?_, ih hnd.2⟩
      intro hmem
      rcases pairs_addOrRevive_sub hmem with h2 | h2
      · exact hnd.1 h2
      · apply hb
        have h3 : b.host = host ∧ b.port = port := by
          have := congrArg Prod.fst h2
          have h4 := congrArg Prod.snd h2
          exact ⟨this, h4⟩
        exact h3

theorem addBackend_poolsNodup (st : ProxyState) (mdl host : String) (port : Nat)
    (partition : String) (hnd : PoolsPairsNodup st.pools) :
    PoolsPairsNodup (st.addBackend mdl host port partition).pools := by
  unfold ProxyState.addBackend
  cases hl : lookupD st.pools mdl with
  | none =>
    intro kv hkv
    rcases mem_insertD hkv with h1 | h1
    · exact hnd kv h1
    · rw [h1]
      simp [PairsNodup, BackendPool.add_backend, addOrReviveBackend]
  | some pool =>
    intro kv hkv
    rcases mem_insertD hkv with h1 | h1
    · exact hnd kv h1
    · rw [h1]
      exact addOrRevive_pairsNodup (hnd (mdl, pool) (lookupD_mem hl))

theorem addStep_fold_pairsNodup :
    ∀ (l : List Endpoint) (s : OrchState), PoolsPairsNodup s.proxy.pools →
      PoolsPairsNodup ((l.foldl addStep s)).proxy.pools := by
  intro l
  induction l with
  | nil => intro s h; exact h
  | cons e es ih =>
    intro s h
    simp only [List.foldl_cons]
    exact ih _ (addBackend_poolsNodup s.proxy e.model "localhost" e.port e.partition h)

theorem flatten_map_sublist {α β : Type} (f : α → List β) :
    ∀ (l : List α) (e : α), e ∈ l → (f e).Sublist ((l.map f).flatten) := by
  intro l
  induction l with
  | nil => intro e h; simp at h
  | cons a as ih =>
    intro e h
    simp only [List.map_cons, List.flatten_cons]
    rcases List.mem_cons.mp h with h1 | h1
    · rw [h1]
      exact List.sublist_append_left _ _
    · exact (ih e h1).trans (List.sublist_append_right _ _)

/-- A known endpoint, a proxy that serves it, an open tunnel for it. -/
def stE : OrchState :=
  { proxy := { pools :=
      [("m", { model := "m", backends := [{ host := "localhost", port := 5900 }] })] },
    tunnels := [("n1", 5900)],
    known := [⟨"m", "n1", 5900, "p1"⟩] }

/-- Counterexample to the empty-enumeration conjunct of the claim: when the
enumerator yields an empty job map (or none at all), `if not jobs: continue`
skips the whole tick — the previously known backend is **not** removed and
its tunnel stays open. -/
theorem C8_empty_tick_counterexample :
    pollTick stE [("m", 5900)] (fun _ _ => true) (some []) = (stE, []) ∧
    pollTick stE [("m", 5900)] (fun _ _ => true) none = (stE, []) ∧
    stE.tunnels = [("n1", 5900)] ∧
    (∃ kv ∈ stE.proxy.pools, ∃ b ∈ kv.2.backends,
        b.host = "localhost" ∧ b.port = 5900) := by
  refine ⟨rfl, rfl, rfl, ?_⟩
  refine ⟨("m", { model := "m", backends := [{ host := "localhost", port := 5900 }] }),
    by simp [stE], { host := "localhost", port := 5900 }, by simp, rfl, rfl⟩

/-- **C8 (amended).** A tick whose enumeration is missing **or empty** is
skipped entirely (`if not jobs: continue`): nothing is removed and no tunnel
is closed.  On a tick with a non-empty job map, every previously known
endpoint absent from the freshly built endpoint set is removed — the action
trace contains its `proxy.remove_backend("localhost", port)` followed by its
tunnel close, after the tick no pool holds a backend at `(localhost, port)`,
and its `(host, port)` tunnel is gone. -/
theorem C8_reconciliation (st : OrchState) (configs : List (String × Nat))
    (avail : String → Nat → Bool) (js : List SlurmJob)
    (hnd : PoolsPairsNodup st.proxy.pools) :
    pollTick st configs avail none = (st, []) ∧
    pollTick st configs avail (some []) = (st, []) ∧
    (js ≠ [] →
      ∀ e ∈ st.known.filter
          (fun e => decide (e ∉ currentEndpoints configs avail js)),
        ([OrchAction.removeBackend "localhost" e.port,
          OrchAction.removeTunnel e.host e.port]).Sublist
            (pollTick st configs avail (some js)).2 ∧
        (e.host, e.port) ∉ (pollTick st configs avail (some js)).1.tunnels ∧
        (∀ kv ∈ (pollTick st configs avail (some js)).1.proxy.pools,
            ∀ b ∈ kv.2.backends, ¬(b.host = "localhost" ∧ b.port = e.port))) := by
  refine ⟨rfl, rfl, ?_⟩
  intro hjs e he
  have hne : js.isEmpty = false := by simpa [List.isEmpty_eq_false] using hjs
  have hpt : pollTick st configs avail (some js)
      = (let current := currentEndpoints configs avail js
         let added := current.filter (fun e => decide (e ∉ st.known))
         let removed := st.known.filter (fun e => decide (e ∉ current))
         let st1 := added.foldl addStep st
         let st2 := removed.foldl remStep st1
         let acts :=
           (added.map (fun e =>
               [OrchAction.addTunnel e.model e.host e.port,
                OrchAction.addBackend e.model "localhost" e.port e.partition])).flatten
           ++ (removed.map (fun e =>
               [OrchAction.removeBackend "localhost" e.port,
                OrchAction.removeTunnel e.host e.port])).flatten
         ({ st2 with known := current }, acts)) := by
    unfold pollTick
    dsimp only
    rw [hne]
    simp
  rw [hpt]
  dsimp only
  have hnd1 : PoolsPairsNodup
      (((currentEndpoints configs avail js).filter
          (fun e => decide (e ∉ st.known))).foldl addStep st).proxy.pools :=
    addStep_fold_pairsNodup _ st hnd
  obtain ⟨hclear, htun⟩ := remStep_fold_removes
    (st.known.filter (fun e => decide (e ∉ currentEndpoints configs avail js)))
    (((currentEndpoints configs avail js).filter
        (fun e => decide (e ∉ st.known))).foldl addStep st)
    hnd1 e he
  refine ⟨?_, htun, hclear⟩
  exact (flatten_map_sublist
      (fun e => [OrchAction.removeBackend "localhost" e.port,
                 OrchAction.removeTunnel e.host e.port]) _ e he).trans
    (List.sublist_append_right _ _)

/-- Concrete instantiation of `C8_reconciliation`: one fresh job advertises a
new replica `(n2, 5910)`, the old endpoint `(n1, 5900)` disappears from the
enumeration, and the tick removes its backend from the pool and closes its
tunnel. -/
theorem C8_reconciliation_witness :
    (let js : List SlurmJob :=
      [{ node := "n2", command := some "/x/start_vllm_m_1.sh", partition := some "p1" }]
     PoolsPairsNodup stE.proxy.pools ∧
     js ≠ [] ∧
     (⟨"m", "n1", 5900, "p1"⟩ : Endpoint) ∈ stE.known.filter
        (fun e => decide (e ∉ currentEndpoints [("m", 5900)] (fun _ _ => true) js)) ∧
     (("n1", 5900) ∉
        (pollTick stE [("m", 5900)] (fun _ _ => true) (some js)).1.tunnels)) := by
  refine ⟨by decide, by decide, by decide, ?_⟩
  exact ((C8_reconciliation stE [("m", 5900)] (fun _ _ => true)
      [{ node := "n2", command := some "/x/start_vllm_m_1.sh", partition := some "p1" }]
      (by decide)).2.2 (by decide) ⟨"m", "n1", 5900, "p1"⟩ (by decide)).2.1

end AgentInfra
